import Mathlib

set_option autoImplicit false

/-!
# Verification of the manta-buckets-api request-processing core

This file gives a shallow embedding, in Lean 4, of the parts of the
manta-buckets-api gateway that the specification talks about:

* metadata placement (hash / divide / ring lookup), from
  lib/metadata_placement.js and lib/common.js;
* bucket-name validation and metadata-error translation, from
  lib/buckets/common.js;
* object-create metadata construction, from lib/buckets/buckets.js;
* the storage fan-out response handling, from lib/common.js;
* bucket deletion and its emptiness check, from lib/buckets/delete.js;
* the merged pagination engine (LimitMarkerStream + paginationStream),
  from lib/buckets/common.js;
* the conditional (If-None-Match / If-Modified-Since) handler, from
  lib/buckets/buckets.js.

JavaScript strings are sequences of UTF-16 code units compared code unit by
code unit; listing keys are therefore modelled as lists over `Fin 65536`.
Bucket-name validation only inspects ASCII, and is modelled over `Char`.
-/

/-! ## Metadata placement (C10)

`MetadataPlacement.prototype._getLocation` (lib/metadata_placement.js) and
`getDataLocation` (lib/common.js) both hash a routing key with the ring's
algorithm, divide the (hex) digest by the ring's vnode hash interval and
look the vnode up in the ring maps.  The digest computation
`crypto.createHash(name).update(tkey).digest('hex')` followed by the bignum
hex conversion is modelled by an abstract function `digestHex` from the
algorithm name and the key to the numeric value of the hex digest; both
functions in the source use the same expression, so both embeddings receive
the same `digestHex`. -/

structure RingAlgorithm where
  NAME : String
  /-- numeric value of the hex string `VNODE_HASH_INTERVAL` -/
  VNODE_HASH_INTERVAL : Nat

structure PlacementRing where
  algorithm : RingAlgorithm
  /-- `vnodeToPnodeMap[vnode].pnode` -/
  vnodeToPnodeMap : Nat → String
  /-- `pnodeToVnodeMap[pnode][vnode]` -/
  pnodeToVnodeMap : String → Nat → Nat

structure PlacementData where
  ring : PlacementRing

structure LocationData where
  pnode : String
  vnode : Nat
  data : Nat
deriving DecidableEq

/-- `MetadataPlacement.prototype._getLocation(tkey)`, lib/metadata_placement.js
lines 221-254, transcribed statement by statement. -/
def MetadataPlacement_getLocation (digestHex : String → String → Nat)
    (placementData : PlacementData) (tkey : String) : LocationData :=
  let value := digestHex placementData.ring.algorithm.NAME tkey
  let vnodeHashInterval := placementData.ring.algorithm.VNODE_HASH_INTERVAL
  let vnode := value / vnodeHashInterval
  let pnode := placementData.ring.vnodeToPnodeMap vnode
  let data := placementData.ring.pnodeToVnodeMap pnode vnode
  { pnode := pnode, vnode := vnode, data := data }

/-- `getDataLocation(placementData, tkey)`, lib/common.js lines 820-841,
transcribed statement by statement. -/
def getDataLocation (digestHex : String → String → Nat)
    (placementData : PlacementData) (tkey : String) : LocationData :=
  let value := digestHex placementData.ring.algorithm.NAME tkey
  let vnodeHashInterval := placementData.ring.algorithm.VNODE_HASH_INTERVAL
  let vnode := value / vnodeHashInterval
  let pnode := placementData.ring.vnodeToPnodeMap vnode
  let data := placementData.ring.pnodeToVnodeMap pnode vnode
  { pnode := pnode, vnode := vnode, data := data }

/-! ## Bucket-name validation (C8)

From lib/buckets/common.js lines 22-72.  The name regex is
`^(L\.)*L$` with `L = [a-z0-9]([a-z0-9-]*[a-z0-9])?`: the name is a
non-empty dot-separated sequence of labels, where a label never contains a
dot, so matching is equivalent to splitting on the dots and checking every
piece against `L`.

The IP-resemblance pattern is built with
`format('^%s\.%s\.%s\.%s$', ...)` where the format string is a plain
single-quoted JavaScript string: inside such a string the two-character
sequence backslash-dot is just a dot, because backslash-dot is not a string
escape.  The regex that is actually compiled is therefore
`^[0-9]{1,3}.[0-9]{1,3}.[0-9]{1,3}.[0-9]{1,3}$` in which the dot is the
regex wildcard: four groups of one to three digits separated by ANY single
character.  This contradicts the comment right above it in the source,
which defines resemblance as groups "separated by periods" - see the C8
theorem below. -/

def isLowerAlnumChar (c : Char) : Bool :=
  (('a' ≤ c) && (c ≤ 'z')) || (('0' ≤ c) && (c ≤ '9'))

def isLabelChar (c : Char) : Bool :=
  isLowerAlnumChar c || (c = '-')

/-- One label: `[a-z0-9]([a-z0-9-]*[a-z0-9])?`. -/
def isBucketLabel : List Char → Bool
  | [] => false
  | [c] => isLowerAlnumChar c
  | c :: rest =>
    isLowerAlnumChar c && rest.dropLast.all isLabelChar &&
      (match rest.getLast? with
       | some l => isLowerAlnumChar l
       | none => false)

/-- `bucketRegex.test(name)`: `^(L\.)*L$` via splitting on dots. -/
def bucketRegexTest (cs : List Char) : Bool :=
  (cs.splitOn '.').all isBucketLabel

def isDigitChar (c : Char) : Bool :=
  ('0' ≤ c) && (c ≤ '9')

/-- Backtracking matcher for the compiled IP-resemblance regex: one group of
one to three digits, then `k` repetitions of (any one character, then a
group of one to three digits), consuming the whole input.  The separator is
any character because the backslash before the dot is lost in the
JavaScript string literal (see above). -/
def ipGroupsMatch : Nat → List Char → Bool
  | 0, cs =>
    decide (1 ≤ cs.length) && decide (cs.length ≤ 3) && cs.all isDigitChar
  | k + 1, cs =>
    [1, 2, 3].any fun n =>
      decide ((cs.take n).length = n) && (cs.take n).all isDigitChar &&
        (match cs.drop n with
         | [] => false
         | _ :: rest => ipGroupsMatch k rest)

/-- `resemblesIpRegex.test(name)` as compiled (wildcard separators). -/
def resemblesIpTest (cs : List Char) : Bool :=
  ipGroupsMatch 3 cs

/-- `nullRegex.test(name)`: contains a NUL. -/
def containsNul (cs : List Char) : Bool :=
  cs.any fun c => c = '\x00'

/-- `isValidBucketName(name)`, lib/buckets/common.js lines 65-72. -/
def isValidBucketName (cs : List Char) : Bool :=
  bucketRegexTest cs && !resemblesIpTest cs && !containsNul cs &&
    decide (3 ≤ cs.length) && decide (cs.length ≤ 63)

/-- The IP-resemblance pattern as the claim (and the comment in the source)
describes it: four groups of one to three digits separated by periods.
Modelled from the claim's words for comparison with `resemblesIpTest`. -/
def ipGroupsMatchDotted : Nat → List Char → Bool
  | 0, cs =>
    decide (1 ≤ cs.length) && decide (cs.length ≤ 3) && cs.all isDigitChar
  | k + 1, cs =>
    [1, 2, 3].any fun n =>
      decide ((cs.take n).length = n) && (cs.take n).all isDigitChar &&
        (match cs.drop n with
         | '.' :: rest => ipGroupsMatchDotted k rest
         | _ => false)

/-- The validator the claim describes: same as the code except that only
period-separated digit groups resemble an IP address. -/
def claimValidBucketName (cs : List Char) : Bool :=
  bucketRegexTest cs && !ipGroupsMatchDotted 3 cs && !containsNul cs &&
    decide (3 ≤ cs.length) && decide (cs.length ≤ 63)

/-! ## Error model and error translation (C9) -/

/-- A JavaScript error as the gateway sees it: the `name` used by the
translation switch, the externally visible `restCode` and `statusCode`, and
an optional cause chain. -/
inductive JsError where
  | mk (name : String) (restCode : String) (statusCode : Nat)
       (cause : Option JsError)

def JsError.name : JsError → String
  | .mk n _ _ _ => n

def JsError.restCode : JsError → String
  | .mk _ r _ _ => r

def JsError.statusCode : JsError → Nat
  | .mk _ _ s _ => s

def JsError.cause : JsError → Option JsError
  | .mk _ _ _ c => c

/-- `new errors.BucketExistsError(bucket)`, lib/errors.js. -/
def BucketExistsError (_bucket : String) : JsError :=
  .mk ("BucketExistsError") ("BucketAlreadyExists") 409 none

/-- `new errors.BucketNotFoundError(p)`, lib/errors.js. -/
def BucketNotFoundError (_p : String) : JsError :=
  .mk ("BucketNotFoundError") ("BucketNotFound") 404 none

/-- `new errors.ObjectNotFoundError(p)`, lib/errors.js. -/
def ObjectNotFoundError (_p : String) : JsError :=
  .mk ("ObjectNotFoundError") ("ObjectNotFound") 404 none

/-- `new errors.BucketNotEmptyError(bucket)`, lib/errors.js. -/
def BucketNotEmptyError (_bucket : String) : JsError :=
  .mk ("BucketNotEmptyError") ("BucketNotEmpty") 409 none

/-- `new InternalError(cause)`, lib/errors.js. -/
def InternalError (cause : Option JsError) : JsError :=
  .mk ("InternalError") ("InternalError") 500 cause

/-- `translateBucketError(req, err)`, lib/buckets/common.js lines 88-124.
The switch maps the three recognized buckets-mdapi error names to gateway
errors built from the request's bucket / object name; the `default` arm
leaves `err` untouched and the function returns it unchanged. -/
def translateBucketError (bucketName objectName : String) (err : JsError) :
    JsError :=
  if err.name = "BucketAlreadyExists" then BucketExistsError bucketName
  else if err.name = "BucketNotFound" then BucketNotFoundError bucketName
  else if err.name = "ObjectNotFound" then ObjectNotFoundError objectName
  else err

/-! ## Object-create metadata (C1)

From lib/buckets/buckets.js lines 183-273 (`createObjectMetadata`) and
lib/buckets/objects/put.js (`createObject`).  The role-tag / header
filtering parts of `createObjectMetadata` do not feed the fields the claim
is about (`contentLength`, `contentMD5`, `sharks`) and are not modelled;
`md.sharks` is built from `req.sharks[i]._shark`, whose two copied fields
are modelled by `SharkDesc`. -/

structure SharkDesc where
  datacenter : String
  manta_storage_id : String
deriving DecidableEq

/-- The request fields feeding `createObjectMetadata`:
`req._size` (from `parseArguments`), `req._copies` (requested durability),
`req.sharks` (the opened shark streams in `s._shark` form) and
`req._contentMD5` (the digest computed by the check stream in
`sharkStreams`, `none` while not yet assigned). -/
structure PutReq where
  size : Nat
  copies : Nat
  sharks : List SharkDesc
  contentMD5 : Option String
deriving DecidableEq

structure ObjectMetadata where
  contentLength : Nat
  contentMD5 : String
  sharks : List SharkDesc
deriving DecidableEq

/-- `ZERO_BYTE_MD5`, lib/common.js line 62. -/
def ZERO_BYTE_MD5 : String := "1B2M2Y8AsgTpgAmY7PhCfg=="

/-- `createObjectMetadata(req, type, cb)`, lib/buckets/buckets.js lines
183-273, restricted to the metadata fields named by the claim.  Lines
213-214 run unconditionally:

  `md.contentLength = 0;`
  `md.contentMD5 = req._contentMD5 = '1B2M2Y8AsgTpgAmY7PhCfg==';`

so the following `if (md.contentLength === 0)` always takes its first
branch and the `else if (req.sharks && req.sharks.length)` branch (comment
in the source: "Normal requests") is unreachable.  The returned pair is
`(md, req)` with the mutated `req._contentMD5`. -/
def createObjectMetadata (req : PutReq) : ObjectMetadata × PutReq :=
  let mdContentLength : Nat := 0
  let mdContentMD5 : String := ZERO_BYTE_MD5
  let req' := { req with contentMD5 := some ZERO_BYTE_MD5 }
  let mdSharks : List SharkDesc :=
    if mdContentLength = 0 then []
    else if !req.sharks.isEmpty then req.sharks
    else []
  ({ contentLength := mdContentLength, contentMD5 := mdContentMD5,
     sharks := mdSharks }, req')

/-- The `(contentLength, contentMD5, sharks)` triple that `createObject`
(lib/buckets/objects/put.js lines 153-232) passes to the `createobject`
RPC: it forwards `object_data.contentLength`, `object_data.contentMD5` and
`object_data.sharks` from the metadata built by `createObjectMetadata`. -/
def createObjectRpcArgs (req : PutReq) : ObjectMetadata :=
  (createObjectMetadata req).1

/-! ## Storage fan-out response handling (C2)

From `sharkStreams` in lib/common.js: the per-node `onSharkResult` handler
(lines 409-460) and the barrier `drain` handler (lines 367-392).  Any call
of `next_err` runs `req.abandonSharks()`, which aborts every open shark
stream; the classification of an action other than `success` therefore
comes with abandoning all streams. -/

/-- JavaScript truthiness of an optional string header (absent and the
empty string are falsy). -/
def isTruthyOptStr : Option String → Bool
  | none => false
  | some s => if s = "" then false else true

/-- JavaScript `a || b` on optional string values. -/
def jsOrString (a b : Option String) : Option String :=
  match a with
  | some s => if s = "" then b else some s
  | none => b

structure SharkResponse where
  statusCode : Nat
  /-- the `x-joyent-computed-content-md5` response header -/
  computedMd5 : Option String
deriving DecidableEq

inductive SharkAction where
  | checksumError
  | badRequest
  | internalError
  | success
deriving DecidableEq

structure SharkStreamState where
  shark : SharkDesc
  md5 : Option String
  aborted : Bool
deriving DecidableEq

/-- `req.abandonSharks()`, lib/common.js lines 101-108: abort every open
shark stream. -/
def abandonSharks (streams : List SharkStreamState) : List SharkStreamState :=
  streams.map fun s => { s with aborted := true }

/-- store `s.md5` on stream `i` -/
def setSharkMd5 (streams : List SharkStreamState) (i : Nat)
    (m : Option String) : List SharkStreamState :=
  match streams.get? i with
  | some s => streams.set i { s with md5 := m }
  | none => streams

/-- The response-code dispatch of `onSharkResult`, lib/common.js lines
421-447:

  469                                   -> ChecksumError
  400 with a request Content-MD5 header -> BadRequestError
  greater than 400                      -> InternalError
  everything else (including a bare 400)-> success (barrier done). -/
def classifySharkResponse (reqContentMd5Hdr : Option String)
    (sres : SharkResponse) : SharkAction :=
  if sres.statusCode = 469 then .checksumError
  else if sres.statusCode = 400 ∧ isTruthyOptStr reqContentMd5Hdr = true then
    .badRequest
  else if 400 < sres.statusCode then .internalError
  else .success

/-- `onSharkResult`, lib/common.js lines 409-460:
`s.md5 = sres.headers['x-joyent-computed-content-md5'] || req._contentMD5`
followed by the status dispatch; every branch other than success calls
`next_err`, which abandons every open shark stream. -/
def onSharkResult (reqContentMd5Hdr reqContentMD5 : Option String)
    (streams : List SharkStreamState) (i : Nat) (sres : SharkResponse) :
    SharkAction × List SharkStreamState :=
  let md5 := jsOrString sres.computedMd5 reqContentMD5
  let streams1 := setSharkMd5 streams i md5
  let act := classifySharkResponse reqContentMd5Hdr sres
  if act = .success then (act, streams1) else (act, abandonSharks streams1)

/-- The barrier `drain` handler, lib/common.js lines 367-392: once the
client body and every storage node have completed, compare every stream's
recorded md5 with the check stream's digest; any difference is an
`InternalError` (raised through `next_err`). -/
def onCompleteStreams (streams : List SharkStreamState) (digest : String) :
    SharkAction :=
  if streams.any (fun s => !(s.md5 == some digest)) then .internalError
  else .success
/-! ## Bucket deletion and the emptiness check (C3)

From `deleteBucket` in lib/buckets/delete.js (lines 16-109) and the limit
validation of `_list` in lib/buckets/common.js (lines 168-185).  The
listing that establishes emptiness is driven by events: the handler reacts
to the FIRST `entry` event by sending 409 BucketNotEmpty and detaching the
`end` listener, so the `deletebucket` RPC (issued only from the `end`
listener when no entry was seen) is never reached.  The event stream is
modelled sequentially: the entries the listing would emit, then an optional
trailing error. -/

structure ListingEntry where
  name : String
deriving DecidableEq

/-- The `bucket_data` returned by the `getbucket` RPC (only its `id` is
consumed by the delete path). -/
structure BucketInfo where
  id : String
deriving DecidableEq

/-- `LIST_LIMIT`, lib/buckets/common.js line 22. -/
def LIST_LIMIT : Nat := 1024

/-- The limit validation of `_list`, lib/buckets/common.js lines 168-180.
`req.query.limit` is `none` when the query string has no limit parameter;
otherwise `some v` where `v` is the result of `parseInt(..., 10)` (`none`
for NaN). -/
def listLimit (queryLimit : Option (Option Int)) : Except Unit Nat :=
  match queryLimit with
  | none => .ok LIST_LIMIT
  | some none => .error ()
  | some (some n) =>
    if n ≤ 0 ∨ (LIST_LIMIT : Int) < n then .error () else .ok n.toNat

/-- The limit of the emptiness-check listing: `deleteBucket`
(lib/buckets/delete.js line 74) calls `common.listObjects(req,
bucket_data.id)` on the DELETE request itself, whose query string carries
no `limit` parameter, so `_list` falls back to `LIST_LIMIT`. -/
def deleteBucketListingLimit : Except Unit Nat := listLimit none

inductive DeleteBucketOutcome where
  /-- `next(err)` without a response from this handler -/
  | failed (e : JsError)
  /-- `res.send(409, new BucketNotEmptyError(...)); next(err)` -/
  | notEmpty (status : Nat) (e : JsError)
  /-- `res.send(204, null)` after the `deletebucket` RPC succeeded -/
  | deleted (status : Nat)

/-- `deleteBucket`, lib/buckets/delete.js lines 16-109, as a function of
the `getbucket` RPC result, the emptiness listing's events and the
`deletebucket` RPC result.  The second component records whether the
`deletebucket` RPC was issued. -/
def deleteBucket (bucketName : String)
    (getBucketRes : Except JsError BucketInfo)
    (listEntries : List ListingEntry) (listErr : Option JsError)
    (deleteRpc : Except JsError Unit) : DeleteBucketOutcome × Bool :=
  match getBucketRes with
  | .error e => (.failed (translateBucketError bucketName ("") e), false)
  | .ok _ =>
    match listEntries with
    | _ :: _ => (.notEmpty 409 (BucketNotEmptyError bucketName), false)
    | [] =>
      match listErr with
      | some e => (.failed e, false)
      | none =>
        match deleteRpc with
        | .ok _ => (.deleted 204, true)
        | .error e => (.failed (translateBucketError bucketName ("") e), true)
/-! ## Conditional request handling (C7)

From lib/buckets/buckets.js: `isConditional` (lines 345-350),
`validateAndSetConditions` (lines 358-407) and `conditionalHandler` (lines
285-322).  `Date.parse` is modelled by an abstract `parseDate` returning
`none` for NaN; note that the source treats a parse result of `0` (the
epoch itself) as invalid because of the `!value` test.  The split regex
(backslash-s star, comma, backslash-s star) trims whitespace adjacent to
each comma; the pieces before the first and after the last comma keep
their outer whitespace. -/

def isJsSpace (c : Char) : Bool :=
  c = ' ' || c = '\t' || c = '\n' || c = '\r' || c = '\x0B' || c = '\x0C'

/-- Trim the comma-adjacent whitespace of the pieces produced by splitting
on commas: every piece but the last loses trailing whitespace, every piece
but the first loses leading whitespace. -/
def trimCommaPieces : Bool → List (List Char) → List (List Char)
  | _, [] => []
  | isFirst, [p] => [if isFirst then p else p.dropWhile isJsSpace]
  | isFirst, p :: rest =>
    let p1 := if isFirst then p else p.dropWhile isJsSpace
    (p1.reverse.dropWhile isJsSpace).reverse :: trimCommaPieces false rest

/-- `req.headers[name].split(<ws-comma-ws regex>)`. -/
def splitCommaWS (s : String) : List String :=
  (trimCommaPieces true (s.toList.splitOn ',')).map List.asString

/-- JavaScript regex word character: `[A-Za-z0-9_]`. -/
def isWordChar (c : Char) : Bool :=
  c.isAlphanum || c = '_'

/-- `cur.replace(<leading W slash>, '')` then
`cur.replace(<quoted word chars>, '$1')`: drop a weak-validator marker,
then unquote a fully quoted word. -/
def stripEtagEntry (s : String) : String :=
  let cs := s.toList
  let cs1 :=
    match cs with
    | 'W' :: '/' :: rest => rest
    | l => l
  let cs2 :=
    match cs1 with
    | '"' :: rest =>
      match rest.getLast? with
      | some '"' => if rest.dropLast.all isWordChar then rest.dropLast else cs1
      | _ => cs1
    | _ => cs1
  cs2.asString

structure ReqHeaders where
  ifMatch : Option String := none
  ifNoneMatch : Option String := none
  ifModifiedSince : Option String := none
  ifUnmodifiedSince : Option String := none

/-- `isConditional(req)`, lib/buckets/buckets.js lines 345-350: any of the
four conditional headers is present (presence, not truthiness). -/
def isConditional (h : ReqHeaders) : Bool :=
  h.ifMatch.isSome || h.ifNoneMatch.isSome ||
    h.ifModifiedSince.isSome || h.ifUnmodifiedSince.isSome

structure Conditions where
  ifModifiedSince : Option Int := none
  ifUnmodifiedSince : Option Int := none
  ifMatch : Option (List String) := none
  ifNoneMatch : Option (List String) := none
deriving DecidableEq

/-- One date header: skipped when absent or falsy; `Date.parse` NaN (and,
through the `!value` test, the value `0`) is a BadRequestError carrying the
header value. -/
def parseDateHeader (parseDate : String → Option Int) (v : Option String) :
    Except String (Option Int) :=
  match v with
  | none => .ok none
  | some s =>
    if s = "" then .ok none
    else
      match parseDate s with
      | none => .error s
      | some t => if t = 0 then .error s else .ok (some t)

/-- One etag-list header: skipped when absent or falsy; otherwise split on
commas and strip each entry.  The split of a non-empty string is never
empty, so the `value.length > 0` test always succeeds here. -/
def parseEtagHeader (v : Option String) : Option (List String) :=
  match v with
  | none => none
  | some s =>
    if s = "" then none
    else
      let value := (splitCommaWS s).map stripEtagEntry
      if 0 < value.length then some value else none

/-- `validateAndSetConditions(req)`, lib/buckets/buckets.js lines 358-407.
A date error is returned before the etag headers are parsed. -/
def validateAndSetConditions (parseDate : String → Option Int)
    (h : ReqHeaders) : Except String Conditions := do
  let ims ← parseDateHeader parseDate h.ifModifiedSince
  let ius ← parseDateHeader parseDate h.ifUnmodifiedSince
  pure { ifModifiedSince := ims, ifUnmodifiedSince := ius,
         ifMatch := parseEtagHeader h.ifMatch,
         ifNoneMatch := parseEtagHeader h.ifNoneMatch }

/-- `conditionalHandler(req, res, next)`, lib/buckets/buckets.js lines
285-322.  Returns `some 304` when the response is converted to a 304 (the
body is suppressed), `none` when the request passes through unchanged.
`etag` is the `Etag` response header (the object id) and `lastModified`
the object's `Last-Modified` time in milliseconds. -/
def conditionalHandler (method : String) (h : ReqHeaders)
    (conds : Conditions) (etag : String) (lastModified : Int) : Option Nat :=
  if ¬(isConditional h = true) ∨ (method ≠ "HEAD" ∧ method ≠ "GET") then none
  else
    let code1 : Option Nat :=
      match conds.ifNoneMatch with
      | some etags =>
        if etags.any (fun e => e == "*" || e == etag) then some 304 else none
      | none => none
    match conds.ifModifiedSince with
    | some t => if lastModified < t then some 304 else code1
    | none => code1
/-! ## Theorems: C10, C8, C9, C1 -/

/-- C10: for every placement-data snapshot and every routing key,
`MetadataPlacement.prototype._getLocation` and the standalone
`common.getDataLocation` compute identical pnode / vnode / data results:
they are two embeddings of the same hash-divide-lookup algorithm. -/
theorem C10_getLocation_refines_getDataLocation
    (digestHex : String → String → Nat) (pd : PlacementData)
    (tkey : String) :
    MetadataPlacement_getLocation digestHex pd tkey
      = getDataLocation digestHex pd tkey := rfl

/-- C8: the bucket-name validator rejects the name 1-1-1-1, although the
claim (and the comment in the source) say a name of four digit groups
separated by a character other than a period is accepted: because the
backslash is lost in the JavaScript string literal, the compiled
IP-resemblance regex separates the digit groups with a wildcard instead of
a literal period.  The claim-side validator (period separators, as
documented) accepts the same name. -/
theorem C8_bucketName_wildcard_separator_bug :
    isValidBucketName ['1', '-', '1', '-', '1', '-', '1'] = false ∧
    claimValidBucketName ['1', '-', '1', '-', '1', '-', '1'] = true := by
  decide

/-- C9 (counterexample): a metadata-tier error with an unrecognized name is
NOT collapsed to an InternalError with HTTP status 500: the translation
returns it unchanged (here with its original status 418 and rest code). -/
theorem C9_counterexample_unknown_error_not_collapsed :
    translateBucketError ("b") ("o")
        (.mk ("SomeOtherMdapiError") ("SomeOtherMdapiError") 418 none)
      = .mk ("SomeOtherMdapiError") ("SomeOtherMdapiError") 418 none ∧
    (translateBucketError ("b") ("o")
        (.mk ("SomeOtherMdapiError") ("SomeOtherMdapiError") 418 none)).restCode
      ≠ ("InternalError") ∧
    (translateBucketError ("b") ("o")
        (.mk ("SomeOtherMdapiError") ("SomeOtherMdapiError") 418 none)).statusCode
      ≠ 500 := by
  refine ⟨rfl, ?_, ?_⟩ <;> decide

/-- C9 (amended): `translateBucketError` maps only the three recognized
buckets-mdapi error names (BucketAlreadyExists, BucketNotFound,
ObjectNotFound); every other error from the metadata tier is returned
unchanged - the original error object itself, not an InternalError
wrapper. -/
theorem C9_translateBucketError_passthrough
    (bucketName objectName : String) (e : JsError)
    (h1 : e.name ≠ ("BucketAlreadyExists"))
    (h2 : e.name ≠ ("BucketNotFound"))
    (h3 : e.name ≠ ("ObjectNotFound")) :
    translateBucketError bucketName objectName e = e := by
  unfold translateBucketError
  rw [if_neg h1, if_neg h2, if_neg h3]

/-- Witness for the amended C9 theorem at a concrete unrecognized error. -/
theorem C9_translateBucketError_passthrough_witness :
    translateBucketError ("b") ("o")
        (.mk ("PreconditionFailed") ("PreconditionFailed") 412 none)
      = .mk ("PreconditionFailed") ("PreconditionFailed") 412 none :=
  C9_translateBucketError_passthrough ("b") ("o") _
    (by decide) (by decide) (by decide)

/-- A concrete create request: 11 bytes, durability 2, two opened shark
streams, and the MD5 the check stream computed over the received bytes. -/
def c1FailingReq : PutReq :=
  { size := 11, copies := 2,
    sharks := [{ datacenter := "dc-a", manta_storage_id := "1.stor" },
               { datacenter := "dc-b", manta_storage_id := "2.stor" }],
    contentMD5 := some ("XrY7u+Ae7tCTyyK7j1rNww==") }

/-- C1 (evaluation of the code at the failing input): for a create request
of size 11 with requested durability 2 and two opened shark streams, the
metadata handed to the `createobject` RPC has an EMPTY sharks list, content
length 0 and the canonical zero-byte MD5 - and `req._contentMD5` (the value
later reported in the Computed-MD5 response header) is overwritten with the
zero-byte constant, discarding the digest the check stream computed.  The
claim (sharks length = durability, content_md5 = computed MD5 for a
non-empty object) describes the intended behavior; lines 213-214 of
lib/buckets/buckets.js make the `// Normal requests` branch unreachable. -/
theorem C1_createObjectMetadata_discards_request_data :
    0 < c1FailingReq.size ∧ c1FailingReq.copies = 2 ∧
    (createObjectRpcArgs c1FailingReq).sharks = [] ∧
    (createObjectRpcArgs c1FailingReq).contentLength = 0 ∧
    (createObjectRpcArgs c1FailingReq).contentMD5 = ZERO_BYTE_MD5 ∧
    c1FailingReq.contentMD5 ≠ some ZERO_BYTE_MD5 ∧
    (createObjectMetadata c1FailingReq).2.contentMD5 = some ZERO_BYTE_MD5 := by
  refine ⟨by decide, rfl, rfl, rfl, rfl, by decide, rfl⟩
/-! ## Theorems: C2, C3 -/

theorem abandonSharks_all_aborted (streams : List SharkStreamState) :
    ∀ s ∈ abandonSharks streams, s.aborted = true := by
  intro s hs
  simp only [abandonSharks, List.mem_map] at hs
  obtain ⟨t, _, rfl⟩ := hs
  rfl

/-- C2 (counterexample): a storage-node response with status 400 on a
request that carried no Content-MD5 header is treated as success, although
the claim says every status of at least 400 other than 469 and the
400-with-Content-MD5 case yields an internal error: the source tests
`sres.statusCode > 400`, which excludes 400 itself. -/
theorem C2_counterexample_bare_400_is_success :
    classifySharkResponse none { statusCode := 400, computedMd5 := some ("m") }
      = SharkAction.success ∧
    SharkAction.success ≠ SharkAction.internalError := by
  decide

/-- C2 (amended): per storage-node response, 469 yields a ChecksumError; a
400 with a request Content-MD5 header yields a bad-request error; any
status STRICTLY greater than 400 (other than 469) yields an internal
error; a 400 without a request Content-MD5 header, like any status below
400, is treated as success.  After completion, any recorded storage-node
MD5 differing from the gateway's digest yields an internal error.  Any
action other than success abandons (aborts) every open shark stream. -/
theorem C2_sharkStreams_dispatch
    (hdr reqMd5 : Option String) (streams : List SharkStreamState) (i : Nat)
    (sres : SharkResponse) (digest : String) :
    (sres.statusCode = 469 →
      (onSharkResult hdr reqMd5 streams i sres).1 = .checksumError) ∧
    (sres.statusCode = 400 → isTruthyOptStr hdr = true →
      (onSharkResult hdr reqMd5 streams i sres).1 = .badRequest) ∧
    (400 < sres.statusCode → sres.statusCode ≠ 469 →
      (onSharkResult hdr reqMd5 streams i sres).1 = .internalError) ∧
    (sres.statusCode = 400 → isTruthyOptStr hdr = false →
      (onSharkResult hdr reqMd5 streams i sres).1 = .success) ∧
    (sres.statusCode < 400 →
      (onSharkResult hdr reqMd5 streams i sres).1 = .success) ∧
    ((onSharkResult hdr reqMd5 streams i sres).1 ≠ .success →
      ∀ s ∈ (onSharkResult hdr reqMd5 streams i sres).2, s.aborted = true) ∧
    (onCompleteStreams streams digest = .internalError ↔
      ∃ s ∈ streams, s.md5 ≠ some digest) := by
  have hfst : (onSharkResult hdr reqMd5 streams i sres).1
      = classifySharkResponse hdr sres := by
    unfold onSharkResult
    by_cases h : classifySharkResponse hdr sres = SharkAction.success <;>
      simp [h]
  refine ⟨?_, ?_, ?_, ?_, ?_, ?_, ?_⟩
  · intro h469
    rw [hfst]
    unfold classifySharkResponse
    rw [if_pos h469]
  · intro h400 hhdr
    rw [hfst]
    unfold classifySharkResponse
    rw [if_neg (by omega), if_pos ⟨h400, hhdr⟩]
  · intro hgt hne
    rw [hfst]
    unfold classifySharkResponse
    rw [if_neg hne, if_neg (by omega), if_pos hgt]
  · intro h400 hhdr
    rw [hfst]
    unfold classifySharkResponse
    rw [if_neg (by omega), if_neg (by simp [h400, hhdr]), if_neg (by omega)]
  · intro hlt
    rw [hfst]
    unfold classifySharkResponse
    rw [if_neg (by omega), if_neg (by omega), if_neg (by omega)]
  · intro hne
    rw [hfst] at hne
    unfold onSharkResult
    rw [if_neg hne]
    exact abandonSharks_all_aborted _
  · unfold onCompleteStreams
    split <;> rename_i hany
    · simp only [List.any_eq_true, Bool.not_eq_true', beq_eq_false_iff_ne,
        ne_eq] at hany
      simpa using hany
    · simp only [List.any_eq_true, Bool.not_eq_true', beq_eq_false_iff_ne,
        ne_eq] at hany
      constructor
      · intro h
        exact absurd h (by decide)
      · intro h
        exact absurd h (by simpa using hany)

/-- Witness for the amended C2 theorem: a 469 response aborts with a
checksum error and every stream ends up aborted. -/
theorem C2_sharkStreams_dispatch_witness :
    (onSharkResult none none
        [{ shark := { datacenter := "dc-a", manta_storage_id := "1.stor" },
           md5 := none, aborted := false }] 0
        { statusCode := 469, computedMd5 := some ("m") }).1
      = SharkAction.checksumError :=
  (C2_sharkStreams_dispatch none none _ 0 _ ("d")).1 rfl

/-- C3 (counterexample): the emptiness check of bucket deletion does not
issue its object listing with limit 1: the DELETE request carries no limit
query parameter and `_list` falls back to `LIST_LIMIT`, which is 1024. -/
theorem C3_counterexample_listing_limit_not_one :
    deleteBucketListingLimit = .ok 1024 ∧
    deleteBucketListingLimit ≠ .ok 1 := by
  refine ⟨rfl, ?_⟩
  intro h
  simp [deleteBucketListingLimit, listLimit, LIST_LIMIT] at h

/-- C3 (amended): for every DELETE of an existing bucket whose emptiness
listing emits at least one entry, the gateway responds 409 BucketNotEmpty
and never issues the `deletebucket` RPC; emptiness is established by an
object listing issued with the request's default limit (1024, not 1),
reacting to the first entry. -/
theorem C3_deleteBucket_blocks_nonEmpty
    (bucketName : String) (info : BucketInfo)
    (entries : List ListingEntry) (listErr : Option JsError)
    (deleteRpc : Except JsError Unit)
    (hne : entries ≠ []) :
    deleteBucket bucketName (.ok info) entries listErr deleteRpc
        = (.notEmpty 409 (BucketNotEmptyError bucketName), false) ∧
    deleteBucketListingLimit = .ok LIST_LIMIT := by
  cases entries with
  | nil => exact absurd rfl hne
  | cons a as => exact ⟨rfl, rfl⟩

/-- Witness for the amended C3 theorem at a concrete non-empty bucket. -/
theorem C3_deleteBucket_blocks_nonEmpty_witness :
    deleteBucket ("b") (.ok { id := "bid" }) [{ name := "obj1" }] none
        (.ok ())
      = (.notEmpty 409 (BucketNotEmptyError ("b")), false) :=
  (C3_deleteBucket_blocks_nonEmpty ("b") { id := "bid" } [{ name := "obj1" }]
    none (.ok ()) (by simp)).1
/-! ## Theorem: C7 -/

/-- C7: a GET or HEAD object request that carries conditional headers is
converted to 304 exactly when the parsed If-None-Match list contains the
entry * or an entry equal to the retrieved object's etag, or the parsed
If-Modified-Since date is strictly after the object's Last-Modified date;
requests with other methods, or GET/HEAD requests meeting neither
condition, pass through unchanged.  `conds` is the condition set parsed
from the request's headers by `validateAndSetConditions`. -/
theorem C7_conditionalHandler_304_iff
    (method : String) (hdrs : ReqHeaders) (parseDate : String → Option Int)
    (conds : Conditions) (etag : String) (lastModified : Int)
    (_hparse : validateAndSetConditions parseDate hdrs = .ok conds) :
    conditionalHandler method hdrs conds etag lastModified = some 304 ↔
      ((method = "GET" ∨ method = "HEAD") ∧ isConditional hdrs = true ∧
        ((∃ l, conds.ifNoneMatch = some l ∧ ∃ e ∈ l, e = "*" ∨ e = etag) ∨
         (∃ t, conds.ifModifiedSince = some t ∧ lastModified < t))) := by
  clear _hparse
  unfold conditionalHandler
  split_ifs with hg
  · constructor
    · intro habs
      exact absurd habs (by simp)
    · rintro ⟨hm, hc, -⟩
      rcases hg with hg | ⟨h1, h2⟩
      · exact absurd hc hg
      · rcases hm with rfl | rfl
        · exact absurd rfl h2
        · exact absurd rfl h1
  · push_neg at hg
    obtain ⟨hc, hm⟩ := hg
    have hm' : method = "GET" ∨ method = "HEAD" := by
      by_cases hH : method = ("HEAD")
      · exact Or.inr hH
      · exact Or.inl (hm hH)
    obtain ⟨ims, ius, im, inm⟩ := conds
    have hRHS : ((method = "GET" ∨ method = "HEAD") ∧
        isConditional hdrs = true ∧
        ((∃ l, inm = some l ∧ ∃ e ∈ l, e = "*" ∨ e = etag) ∨
         (∃ t, ims = some t ∧ lastModified < t))) ↔
        ((∃ l, inm = some l ∧ ∃ e ∈ l, e = "*" ∨ e = etag) ∨
         (∃ t, ims = some t ∧ lastModified < t)) := by
      constructor
      · rintro ⟨-, -, d⟩
        exact d
      · intro d
        exact ⟨hm', hc, d⟩
    dsimp only
    rw [hRHS]
    rcases inm with _ | l <;> rcases ims with _ | t
    · simp
    · simp
    · simp only [List.any_eq_true, Bool.or_eq_true, beq_iff_eq]
      split_ifs with hany
      · constructor
        · intro h304
          exact Or.inl ⟨l, rfl, hany⟩
        · intro hd
          rfl
      · constructor
        · intro habs
          exact absurd habs (by simp)
        · rintro (⟨l', hl', e, he, hor⟩ | ⟨t', ht', -⟩)
          · obtain rfl : l' = l := (Option.some.inj hl').symm
            exact absurd ⟨e, he, hor⟩ hany
          · exact absurd ht' (by simp)
    · show (if lastModified < t then some 304
            else if l.any (fun e => e == ("*") || e == etag) then some 304
            else (none : Option Nat)) = some 304 ↔ _
      simp only [List.any_eq_true, Bool.or_eq_true, beq_iff_eq]
      split_ifs with hlt hany
      · constructor
        · intro h304
          exact Or.inr ⟨t, rfl, hlt⟩
        · intro hd
          rfl
      · constructor
        · intro h304
          exact Or.inl ⟨l, rfl, hany⟩
        · intro hd
          rfl
      · constructor
        · intro habs
          exact absurd habs (by simp)
        · rintro (⟨l', hl', e, he, hor⟩ | ⟨t', ht', hlt'⟩)
          · obtain rfl : l' = l := (Option.some.inj hl').symm
            exact absurd ⟨e, he, hor⟩ hany
          · obtain rfl : t' = t := (Option.some.inj ht').symm
            exact absurd hlt' hlt

/-- Witness for C7: a GET request whose If-None-Match header parses to the
single entry x1, matching the retrieved etag x1, is converted to 304. -/
theorem C7_conditionalHandler_304_iff_witness :
    conditionalHandler ("GET") { ifNoneMatch := some ("x1") }
        { ifNoneMatch := some [("x1")] } ("x1") 5 = some 304 :=
  (C7_conditionalHandler_304_iff ("GET") { ifNoneMatch := some ("x1") }
      (fun _ => none) { ifNoneMatch := some [("x1")] } ("x1") 5 rfl).mpr
    ⟨Or.inl rfl, rfl,
      Or.inl ⟨[("x1")], rfl, ("x1"), by simp, Or.inr rfl⟩⟩
/-! ## The merged pagination engine (C4, C5, C6)

From `LimitMarkerStream` and `paginationStream` in lib/buckets/common.js
(lines 325-853).  The event-driven engine is sequentialized:

* a vnode stream is the list of records its LimitMarkerStream can still
  deliver (automatic page re-fetching is transparent to the paginator and
  is flattened into one list), plus an optional error event fired after
  those records, the lmstream's `done` flag, and the paginator's buffered
  `o.record` slot;
* one iteration of the `vasync.whilst` loop refills every record slot,
  checks `doneEarly` and the global limit, and runs `processRecords`;
* a record is modelled by its `record[opts.order_by]` key (always the
  name), a JavaScript string, i.e. a sequence of UTF-16 code units.

`assert.ok` / `assert.equal` on the prefix are modelled by an explicit
assertion-failure outcome. -/

/-- A UTF-16 code unit. -/
abbrev CodeUnit := Fin 65536

/-- A JavaScript string as its code units; compared by the lexicographic
order on code units, which is exactly the JavaScript relational operator
on strings. -/
abbrev JStr := List CodeUnit

/-- The boolean JavaScript comparison `a < b` on strings. -/
def jsStrLt : JStr → JStr → Bool
  | [], [] => false
  | [], _ :: _ => true
  | _ :: _, [] => false
  | a :: as, b :: bs =>
    if a < b then true else if b < a then false else jsStrLt as bs

/-- A record modelled by its `record[opts.order_by]` key. -/
abbrev PageRec := JStr

/-- One vnode stream as the paginator sees it. -/
structure VnodeStream where
  /-- the paginator's `o.record` slot -/
  buffered : Option PageRec
  /-- the records the LimitMarkerStream can still deliver, all pages
  flattened -/
  rest : List PageRec
  /-- an error event the underlying RPC stream fires after `rest` -/
  errAtEnd : Option Nat
  /-- the lmstream's `done` flag -/
  done : Bool
deriving DecidableEq

/-- The records a vnode stream still holds (buffered slot first). -/
def VnodeStream.records (v : VnodeStream) : List PageRec :=
  v.buffered.toList ++ v.rest

/-- `record[opts.order_by]` of the buffered record; `[]` stands in for the
undefined of an empty slot (the loop only selects a head after every
surviving vnode has a buffered record). -/
def VnodeStream.headName (v : VnodeStream) : JStr :=
  v.buffered.getD []

inductive PageEmission where
  /-- a plain record forwarded by `sendRecord(rec)` -/
  | record (name : JStr)
  /-- a delimiter group record, with its `nextMarker` -/
  | group (name nextMarker : JStr)
  /-- the terminal `{type: message, finished}` record -/
  | message (finished : Bool)
deriving DecidableEq

def PageEmission.isMessage : PageEmission → Bool
  | .message _ => true
  | _ => false

/-- The name an emission contributes to the listing output (none for the
terminal message). -/
def entryNameOf : PageEmission → Option JStr
  | .record n => some n
  | .group n _ => some n
  | .message _ => none

/-- The keys of the entries of an emission sequence, in order. -/
def entryNames (ems : List PageEmission) : List JStr :=
  ems.filterMap entryNameOf

/-- The options of `paginationStream`: the global limit, the prefix
(`[]` when absent - an empty prefix is falsy in every test the source
makes) and the optional one-character delimiter. -/
structure PagOpts where
  limit : Nat
  pfx : JStr
  delim : Option CodeUnit
deriving DecidableEq

structure PagState where
  vnodes : List VnodeStream
  emitted : List PageEmission
  errorsSeen : List Nat
  doneEarly : Bool
  totalSent : Nat
deriving DecidableEq

/-- One pass of the whilst refill step (lib/buckets/common.js lines
666-699): a vnode with a buffered record is left alone; a vnode whose
lmstream is done is removed; otherwise the next record is read into the
slot, a clean end removes the vnode, and an error event removes it while
collecting the error (the emitted error sets `doneEarly`). -/
def refillVnodes : List VnodeStream → List VnodeStream × List Nat
  | [] => ([], [])
  | v :: vs =>
    let r := refillVnodes vs
    match v.buffered with
    | some _ => (v :: r.1, r.2)
    | none =>
      if v.done then (r.1, r.2)
      else
        match v.rest with
        | x :: xs => ({ v with buffered := some x, rest := xs } :: r.1, r.2)
        | [] =>
          match v.errAtEnd with
          | some e => (r.1, e :: r.2)
          | none => (r.1, r.2)

/-- The head selection of `processRecords` (lines 764-770): the keys are
sorted with the comparator `a[order_by] < b[order_by] ? -1 : 1` and
`keys[0]` is taken; JavaScript object keys iterate in ascending numeric
order and the sort is stable, so this is the earliest vnode with the
smallest buffered record.  Returns its position and the vnode. -/
def headSelect : List VnodeStream → Option (Nat × VnodeStream)
  | [] => none
  | v :: vs =>
    match headSelect vs with
    | none => some (0, v)
    | some (j, w) =>
      if jsStrLt w.headName v.headName then some (j + 1, w) else some (0, v)

/-- `name.indexOf(delimiter)` for a one-character delimiter (`none` for
-1). -/
def jsIndexOf (d : CodeUnit) : JStr → Option Nat
  | [] => none
  | c :: cs => if c = d then some 0 else (jsIndexOf d cs).map (· + 1)

/-- The per-vnode fast-forward of the group branch (lines 821-843)
together with `LimitMarkerStream.setNewMarker` (lines 388-439): a vnode
whose lmstream is done is deleted (losing its buffered record); otherwise
the buffered record is cleared when its key is truthy and below the
marker, setNewMarker discards the stream's records below the marker
(keeping the first record at or above it pending), and the lmstream
observes exhaustion when nothing remains. -/
def setNewMarkerVN (marker : JStr) (v : VnodeStream) : Option VnodeStream :=
  if v.done then none
  else
    let buffered : Option PageRec :=
      match v.buffered with
      | some r => if r ≠ [] ∧ jsStrLt r marker = true then none else some r
      | none => none
    let rest := v.rest.dropWhile fun r => jsStrLt r marker
    some { v with buffered := buffered, rest := rest, done := rest.isEmpty }

/-- The emission logic of `processRecords` for the selected head record
(lines 779-818): without a delimiter the record is sent as is; with a
delimiter the prefix (when truthy) is asserted to be a prefix of the name
(`none` models the assertion failure) and stripped, the delimiter is
looked up in the remainder, and either the plain record or a group record
is produced.  The group's nextMarker appends
`String.fromCharCode(delimiter.charCodeAt(0) + 1)`; the `Fin` addition
wraps at 2^16 exactly as `fromCharCode` does. -/
def processSelectedRecord (pfx : JStr) (delim : Option CodeUnit)
    (r0 : JStr) : Option (PageEmission × Option JStr) :=
  match delim with
  | none => some (.record r0, none)
  | some d =>
    if pfx ≠ [] ∧ ¬ pfx.isPrefixOf r0 = true then none
    else
      let name := if pfx ≠ [] then r0.drop pfx.length else r0
      match jsIndexOf d name with
      | none => some (.record r0, none)
      | some idx =>
        let base := pfx ++ name.take idx
        let nextMarker := base ++ [d + 1]
        some (.group (base ++ [d]) nextMarker, some nextMarker)

/-- `processRecords`, lib/buckets/common.js lines 755-853: pick the vnode
with the lowest head, clear its record slot, emit the plain or group
record (counting it against the limit), and on a group fast-forward every
vnode stream to the nextMarker.  The error value carries the state at an
assertion failure. -/
def processRecords (o : PagOpts) (st : PagState) : Except PagState PagState :=
  match headSelect st.vnodes with
  | none => .ok st
  | some (i, v) =>
    let selName := v.headName
    let vs := st.vnodes.set i { v with buffered := none }
    match processSelectedRecord o.pfx o.delim selName with
    | none => .error { st with vnodes := vs }
    | some (em, none) =>
      .ok { st with
            vnodes := vs
            emitted := st.emitted ++ [em]
            totalSent := st.totalSent + 1 }
    | some (em, some marker) =>
      .ok { st with
            vnodes := vs.filterMap (setNewMarkerVN marker)
            emitted := st.emitted ++ [em]
            totalSent := st.totalSent + 1 }

inductive RunOutcome where
  | ok (emitted : List PageEmission) (finalVnodes : List VnodeStream)
  | errored (emitted : List PageEmission) (errs : List Nat)
  | assertFailed (emitted : List PageEmission)
  | fuelOut (emitted : List PageEmission)
deriving DecidableEq

/-- What the caller observed on each outcome. -/
def RunOutcome.emitted : RunOutcome → List PageEmission
  | .ok em _ => em
  | .errored em _ => em
  | .assertFailed em => em
  | .fuelOut em => em

/-- The completion function of the whilst (lines 724-753):
`verror.errorFromList(errorsSeen)` is null exactly when no error was
collected; with errors the caller receives them and no terminal message;
otherwise the terminal message carries
`finished = (Object.keys(vnodes).length === 0)`. -/
def finishPagination (st : PagState) : RunOutcome :=
  if st.errorsSeen.isEmpty then
    .ok (st.emitted ++ [.message st.vnodes.isEmpty]) st.vnodes
  else .errored st.emitted st.errorsSeen

/-- The whilst loop of `paginationStream` (lines 661-753), sequentialized,
with explicit fuel: while vnodes remain and doneEarly is unset, refill the
slots (collecting stream errors, which set doneEarly), stop at the global
limit, and process one record. -/
def paginationLoop (o : PagOpts) : Nat → PagState → RunOutcome
  | 0, st => .fuelOut st.emitted
  | fuel + 1, st =>
    if st.vnodes.isEmpty || st.doneEarly then finishPagination st
    else
      let rf := refillVnodes st.vnodes
      let st1 : PagState :=
        { st with
          vnodes := rf.1
          errorsSeen := st.errorsSeen ++ rf.2
          doneEarly := st.doneEarly || !rf.2.isEmpty }
      if st1.doneEarly then paginationLoop o fuel st1
      else if o.limit ≤ st1.totalSent then
        paginationLoop o fuel { st1 with doneEarly := true }
      else
        match processRecords o st1 with
        | .error stA => .assertFailed stA.emitted
        | .ok st2 => paginationLoop o fuel st2

/-- Records still held by a vnode list, plus one per vnode: every full
loop iteration consumes a record or removes a vnode. -/
def vnListMeasure (vs : List VnodeStream) : Nat :=
  (vs.map fun v => v.records.length).sum + vs.length

def pagMeasure (st : PagState) : Nat :=
  vnListMeasure st.vnodes

/-- The per-vnode state `_list` builds: `record: null` and a fresh
LimitMarkerStream over the given record supply. -/
def initVnodeStream (records : List PageRec) (errAtEnd : Option Nat) :
    VnodeStream :=
  { buffered := none, rest := records, errAtEnd := errAtEnd, done := false }

/-- `paginationStream(opts, onRecord, done)` run to completion over the
per-vnode record streams (each given with an optional trailing error
event). -/
def paginationStream (o : PagOpts)
    (streams : List (List PageRec × Option Nat)) : RunOutcome :=
  let st : PagState :=
    { vnodes := streams.map fun s => initVnodeStream s.1 s.2,
      emitted := [], errorsSeen := [], doneEarly := false, totalSent := 0 }
  paginationLoop o (pagMeasure st + 2) st

/-- The name up to and including the first occurrence of the delimiter
(the whole name when the delimiter does not occur).  With a delimiter
configured, a record whose (prefix-stripped) name contains the delimiter
is folded into a group whose name is the prefix plus the name up to and
including the first delimiter; otherwise the record is emitted plainly.
`truncAtDelim` captures the part after the prefix in both cases. -/
def truncAtDelim (d : CodeUnit) : JStr → JStr
  | [] => []
  | c :: cs => if c = d then [d] else c :: truncAtDelim d cs

/-- The prefix assertion of `processRecords` holds for this record name
(vacuously when the prefix is falsy). -/
def pfxOk (pfx x : JStr) : Prop :=
  pfx = [] ∨ pfx.isPrefixOf x = true

instance (pfx x : JStr) : Decidable (pfxOk pfx x) := by
  unfold pfxOk
  infer_instance

/-- The key a record contributes to the listing output: the record name
itself without a delimiter, its group-folded form with one. -/
def emitKeyOf (pfx : JStr) (delim : Option CodeUnit) (x : JStr) : JStr :=
  match delim with
  | none => x
  | some d => pfx ++ truncAtDelim d (x.drop pfx.length)

/-- The invariant of the merge loop: each stream's remaining records are
sorted, the names emitted so far are sorted, and every name emitted so
far is at most the output key of every record still held by a stream
(among the records the group branch would not reject). -/
def PagInv (o : PagOpts) (st : PagState) : Prop :=
  (∀ v ∈ st.vnodes, v.records.Pairwise (· ≤ ·)) ∧
  (entryNames st.emitted).Pairwise (· ≤ ·) ∧
  ∀ n ∈ entryNames st.emitted, ∀ v ∈ st.vnodes, ∀ r ∈ v.records,
    (o.delim = none ∨ pfxOk o.pfx r) → n ≤ emitKeyOf o.pfx o.delim r

/-- No terminal `{type: message}` record occurs in the list. -/
def NoMessages (l : List PageEmission) : Prop :=
  ∀ e ∈ l, e.isMessage = false

/-- The bookkeeping invariant of the merge loop: nothing emitted so far
is a terminal message, the limit accounting matches the emissions and
never exceeds the limit, an early stop implies a collected error or the
limit was reached, and (unless no delimiter is configured) every record
still held passes the group branch's prefix assertion. -/
def C6Inv (o : PagOpts) (st : PagState) : Prop :=
  NoMessages st.emitted ∧
  st.totalSent = st.emitted.length ∧
  st.totalSent ≤ o.limit ∧
  (st.doneEarly = true → ¬ st.errorsSeen = [] ∨ o.limit ≤ st.totalSent) ∧
  (o.delim = none ∨ ∀ v ∈ st.vnodes, ∀ r ∈ v.records, pfxOk o.pfx r)
/-! ### Order facts about JavaScript string comparison -/

theorem jsStrLt_iff_lt (a b : JStr) : jsStrLt a b = true ↔ a < b := by
  induction a generalizing b with
  | nil =>
    cases b with
    | nil =>
      constructor
      · intro h
        exact absurd h (by simp [jsStrLt])
      · intro h
        exact absurd h (lt_irrefl _)
    | cons c cs =>
      constructor
      · intro h
        exact List.Lex.nil
      · intro h
        rfl
  | cons a as ih =>
    cases b with
    | nil =>
      constructor
      · intro h
        exact absurd h (by simp [jsStrLt])
      · intro h
        exact absurd h (List.Lex.not_nil_right _ _)
    | cons b bs =>
      by_cases hab : a < b
      · simp only [jsStrLt, if_pos hab]
        exact ⟨fun _ => List.Lex.rel hab, fun _ => trivial⟩
      · by_cases hba : b < a
        · simp only [jsStrLt, if_neg hab, if_pos hba]
          constructor
          · intro h
            exact absurd h (by simp)
          · intro h
            have h' : List.Lex (· < ·) (a :: as) (b :: bs) := h
            cases h' with
            | cons h2 => exact absurd hba (lt_irrefl _)
            | rel h2 => exact absurd h2 hab
        · obtain rfl : a = b := le_antisymm (not_lt.mp hba) (not_lt.mp hab)
          simp only [jsStrLt, if_neg hab, if_neg hba]
          rw [ih bs]
          constructor
          · intro h
            exact List.Lex.cons h
          · intro h
            exact (List.Lex.cons_iff).mp h

theorem jsStrLt_eq_false_iff (a b : JStr) : jsStrLt a b = false ↔ b ≤ a := by
  rw [← not_lt, ← jsStrLt_iff_lt]
  cases h : jsStrLt a b <;> simp

theorem le_append_self (a t : JStr) : a ≤ a ++ t := by
  induction a with
  | nil => exact List.nil_le
  | cons c cs ih => exact List.cons_le_cons c ih

theorem append_lt_append_left (p : JStr) {a b : JStr} (h : a < b) :
    p ++ a < p ++ b :=
  List.Lex.append_left _ h p

theorem lt_of_append_lt_append_left (p : JStr) {a b : JStr}
    (h : p ++ a < p ++ b) : a < b := by
  induction p with
  | nil => exact h
  | cons c cs ih =>
    have h' : List.Lex (· < ·) (c :: (cs ++ a)) (c :: (cs ++ b)) := h
    exact ih (List.Lex.cons_iff.mp h')

theorem append_le_append_left_iff (p a b : JStr) :
    p ++ a ≤ p ++ b ↔ a ≤ b := by
  constructor <;> intro h <;> by_contra hc <;> rw [not_le] at hc
  · exact absurd (append_lt_append_left p hc) (not_lt.mpr h)
  · exact absurd (lt_of_append_lt_append_left p hc) (not_lt.mpr h)

/-! ### The key a record contributes to the output -/

theorem truncAtDelim_lt_rev (d : CodeUnit) (x : JStr) :
    ∀ (y : JStr), truncAtDelim d x < truncAtDelim d y → x < y := by
  induction x with
  | nil =>
    intro y h
    cases y with
    | nil => exact absurd h (lt_irrefl _)
    | cons b ys => exact List.Lex.nil
  | cons a xs ih =>
    intro y h
    cases y with
    | nil => exact absurd h (List.Lex.not_nil_right _ _)
    | cons b ys =>
      by_cases had : a = d <;> by_cases hbd : b = d
      · simp only [truncAtDelim, if_pos had, if_pos hbd] at h
        exact absurd h (lt_irrefl _)
      · simp only [truncAtDelim, if_pos had, if_neg hbd] at h
        have h' : List.Lex (· < ·) [d] (b :: truncAtDelim d ys) := h
        cases h' with
        | cons h2 => exact absurd rfl hbd
        | rel h2 =>
          subst had
          exact List.Lex.rel h2
      · simp only [truncAtDelim, if_neg had, if_pos hbd] at h
        have h' : List.Lex (· < ·) (a :: truncAtDelim d xs) [d] := h
        cases h' with
        | cons h2 => exact absurd rfl had
        | rel h2 =>
          subst hbd
          exact List.Lex.rel h2
      · simp only [truncAtDelim, if_neg had, if_neg hbd] at h
        have h' : List.Lex (· < ·) (a :: truncAtDelim d xs)
            (b :: truncAtDelim d ys) := h
        cases h' with
        | cons h2 => exact List.Lex.cons (ih ys h2)
        | rel h2 => exact List.Lex.rel h2

theorem truncAtDelim_mono (d : CodeUnit) {x y : JStr} (h : x ≤ y) :
    truncAtDelim d x ≤ truncAtDelim d y := by
  by_contra hc
  rw [not_le] at hc
  exact absurd (truncAtDelim_lt_rev d y x hc) (not_lt.mpr h)

theorem truncAtDelim_of_jsIndexOf_none (d : CodeUnit) (x : JStr)
    (h : jsIndexOf d x = none) : truncAtDelim d x = x := by
  induction x with
  | nil => rfl
  | cons c cs ih =>
    simp only [jsIndexOf] at h
    by_cases hcd : c = d
    · rw [if_pos hcd] at h
      exact absurd h (by simp)
    · rw [if_neg hcd] at h
      rw [Option.map_eq_none'] at h
      simp only [truncAtDelim, if_neg hcd]
      rw [ih h]

theorem truncAtDelim_of_jsIndexOf_some (d : CodeUnit) (x : JStr) :
    ∀ (idx : Nat), jsIndexOf d x = some idx →
      truncAtDelim d x = x.take idx ++ [d] := by
  induction x with
  | nil =>
    intro idx h
    exact absurd h (by simp [jsIndexOf])
  | cons c cs ih =>
    intro idx h
    simp only [jsIndexOf] at h
    by_cases hcd : c = d
    · rw [if_pos hcd] at h
      obtain rfl : (0 : Nat) = idx := Option.some.inj h
      simp only [truncAtDelim, if_pos hcd, List.take_zero, List.nil_append]
    · rw [if_neg hcd, Option.map_eq_some'] at h
      obtain ⟨j, hj, hidx⟩ := h
      subst hidx
      simp only [truncAtDelim, if_neg hcd, List.take_succ_cons, List.cons_append]
      rw [ih j hj]
/-! ### Structural facts about the engine -/

theorem vnListMeasure_cons (v : VnodeStream) (vs : List VnodeStream) :
    vnListMeasure (v :: vs) = v.records.length + vnListMeasure vs + 1 := by
  simp only [vnListMeasure, List.map_cons, List.sum_cons, List.length_cons]
  omega

theorem refillVnodes_mem {vs : List VnodeStream} {v' : VnodeStream}
    (h : v' ∈ (refillVnodes vs).1) :
    ∃ v ∈ vs, v'.records = v.records := by
  induction vs with
  | nil => exact absurd h (by simp [refillVnodes])
  | cons v vs ih =>
    rcases hvb : v.buffered with _ | r
    · cases hd : v.done
      · rcases hr : v.rest with _ | ⟨x, xs⟩
        · rcases herr : v.errAtEnd with _ | e <;>
            simp only [refillVnodes, hvb, hd, hr, herr] at h <;>
            obtain ⟨w, hw, hee⟩ := ih h <;>
            exact ⟨w, List.mem_cons_of_mem _ hw, hee⟩
        · simp only [refillVnodes, hvb, hd, hr] at h
          rcases List.mem_cons.mp h with rfl | h'
          · exact ⟨v, List.mem_cons_self _ _,
              by simp [VnodeStream.records, hvb, hr]⟩
          · obtain ⟨w, hw, hee⟩ := ih h'
            exact ⟨w, List.mem_cons_of_mem _ hw, hee⟩
      · simp only [refillVnodes, hvb, hd] at h
        obtain ⟨w, hw, hee⟩ := ih h
        exact ⟨w, List.mem_cons_of_mem _ hw, hee⟩
    · simp only [refillVnodes, hvb] at h
      rcases List.mem_cons.mp h with rfl | h'
      · exact ⟨v', List.mem_cons_self _ _, rfl⟩
      · obtain ⟨w, hw, hee⟩ := ih h'
        exact ⟨w, List.mem_cons_of_mem _ hw, hee⟩

theorem refillVnodes_buffered {vs : List VnodeStream} {v' : VnodeStream}
    (h : v' ∈ (refillVnodes vs).1) : v'.buffered.isSome = true := by
  induction vs with
  | nil => exact absurd h (by simp [refillVnodes])
  | cons v vs ih =>
    rcases hvb : v.buffered with _ | r
    · cases hd : v.done
      · rcases hr : v.rest with _ | ⟨x, xs⟩
        · rcases herr : v.errAtEnd with _ | e <;>
            simp only [refillVnodes, hvb, hd, hr, herr] at h <;> exact ih h
        · simp only [refillVnodes, hvb, hd, hr] at h
          rcases List.mem_cons.mp h with rfl | h'
          · rfl
          · exact ih h'
      · simp only [refillVnodes, hvb, hd] at h
        exact ih h
    · simp only [refillVnodes, hvb] at h
      rcases List.mem_cons.mp h with rfl | h'
      · rw [hvb]
        rfl
      · exact ih h'

theorem refillVnodes_measure (vs : List VnodeStream) :
    vnListMeasure (refillVnodes vs).1 + (refillVnodes vs).2.length
      ≤ vnListMeasure vs := by
  induction vs with
  | nil => simp [refillVnodes, vnListMeasure]
  | cons v vs ih =>
    rcases hvb : v.buffered with _ | r
    · cases hd : v.done
      · rcases hr : v.rest with _ | ⟨x, xs⟩
        · rcases herr : v.errAtEnd with _ | e
          · simp only [refillVnodes, hvb, hd, hr, herr, Bool.false_eq_true,
              if_false]
            rw [vnListMeasure_cons]
            omega
          · simp only [refillVnodes, hvb, hd, hr, herr, Bool.false_eq_true,
              if_false]
            rw [vnListMeasure_cons]
            simp only [List.length_cons]
            omega
        · simp only [refillVnodes, hvb, hd, hr, Bool.false_eq_true, if_false]
          rw [vnListMeasure_cons, vnListMeasure_cons]
          have h1 : (VnodeStream.records ⟨some x, xs, v.errAtEnd, false⟩).length
              = xs.length + 1 := by
            simp [VnodeStream.records]
          have h2 : v.records.length = xs.length + 1 := by
            simp [VnodeStream.records, hvb, hr]
          omega
      · simp only [refillVnodes, hvb, hd, eq_self_iff_true, if_true]
        rw [vnListMeasure_cons]
        omega
    · simp only [refillVnodes, hvb]
      rw [vnListMeasure_cons, vnListMeasure_cons]
      omega
theorem headSelect_eq_none {vs : List VnodeStream}
    (h : headSelect vs = none) : vs = [] := by
  cases vs with
  | nil => rfl
  | cons v vs =>
    rcases hs : headSelect vs with _ | ⟨j, w⟩ <;>
      simp only [headSelect, hs] at h
    · exact absurd h (by simp)
    · split_ifs at h

theorem headSelect_spec {vs : List VnodeStream} :
    ∀ {i : Nat} {v : VnodeStream}, headSelect vs = some (i, v) →
      vs.get? i = some v ∧ ∀ w ∈ vs, v.headName ≤ w.headName := by
  induction vs with
  | nil =>
    intro i v h
    exact absurd h (by simp [headSelect])
  | cons u us ih =>
    intro i v h
    rcases hs : headSelect us with _ | ⟨j, w⟩ <;>
      simp only [headSelect, hs] at h
    · injection h with h'
      injection h' with h1 h2
      subst h2
      obtain rfl := headSelect_eq_none hs
      refine ⟨by rw [← h1]; rfl, ?_⟩
      intro w hw
      rcases List.mem_cons.mp hw with rfl | hw'
      · exact le_refl _
      · exact absurd hw' (by simp)
    · by_cases hlt : jsStrLt w.headName u.headName = true
      · rw [if_pos hlt] at h
        injection h with h'
        injection h' with h1 h2
        subst h2
        obtain ⟨hget, hmin⟩ := ih hs
        refine ⟨by rw [← h1]; simp only [List.get?_cons_succ]; exact hget, ?_⟩
        intro x hx
        rcases List.mem_cons.mp hx with rfl | hx'
        · exact le_of_lt ((jsStrLt_iff_lt _ _).mp hlt)
        · exact hmin x hx'
      · rw [if_neg hlt] at h
        injection h with h'
        injection h' with h1 h2
        subst h2
        refine ⟨by rw [← h1]; rfl, ?_⟩
        intro x hx
        have hlt' : jsStrLt w.headName u.headName = false := by
          revert hlt
          cases jsStrLt w.headName u.headName <;> simp
        have huw : u.headName ≤ w.headName :=
          (jsStrLt_eq_false_iff _ _).mp hlt'
        rcases List.mem_cons.mp hx with rfl | hx'
        · exact le_refl _
        · obtain ⟨-, hmin⟩ := ih hs
          exact le_trans huw (hmin x hx')

theorem setNewMarkerVN_records_sublist {m : JStr} {v v' : VnodeStream}
    (h : setNewMarkerVN m v = some v') :
    v'.records.Sublist v.records := by
  unfold setNewMarkerVN at h
  by_cases hd : v.done = true
  · rw [if_pos hd] at h
    exact absurd h (by simp)
  · rw [if_neg hd] at h
    have hv' := (Option.some.inj h).symm
    subst hv'
    rcases hb : v.buffered with _ | r
    · simp only [hb, VnodeStream.records, Option.toList_none, List.nil_append]
      exact List.dropWhile_sublist _
    · simp only [hb, VnodeStream.records]
      by_cases hcl : r ≠ [] ∧ jsStrLt r m = true
      · rw [if_pos hcl]
        simp only [Option.toList_none, List.nil_append, Option.toList_some]
        exact (List.dropWhile_sublist _).trans (List.sublist_cons_self _ _)
      · rw [if_neg hcl]
        simp only [Option.toList_some, List.cons_append, List.singleton_append]
        exact List.Sublist.cons₂ _ (List.dropWhile_sublist _)

theorem vnListMeasure_filterMap_le (m : JStr) (vs : List VnodeStream) :
    vnListMeasure (vs.filterMap (setNewMarkerVN m)) ≤ vnListMeasure vs := by
  induction vs with
  | nil => simp [vnListMeasure]
  | cons v vs ih =>
    cases hf : setNewMarkerVN m v with
    | none =>
      simp only [List.filterMap_cons, hf]
      rw [vnListMeasure_cons]
      omega
    | some v' =>
      simp only [List.filterMap_cons, hf]
      rw [vnListMeasure_cons, vnListMeasure_cons]
      have := (setNewMarkerVN_records_sublist hf).length_le
      omega

theorem vnListMeasure_set_lt {vs : List VnodeStream} :
    ∀ {i : Nat} {v v' : VnodeStream}, vs.get? i = some v →
      v'.records.length < v.records.length →
      vnListMeasure (vs.set i v') < vnListMeasure vs := by
  induction vs with
  | nil =>
    intro i v v' hget _
    exact absurd hget (by simp)
  | cons u us ih =>
    intro i v v' hget hlt
    cases i with
    | zero =>
      obtain rfl : u = v := Option.some.inj hget
      simp only [List.set_cons_zero]
      rw [vnListMeasure_cons, vnListMeasure_cons]
      omega
    | succ j =>
      simp only [List.get?_cons_succ] at hget
      simp only [List.set_cons_succ]
      rw [vnListMeasure_cons, vnListMeasure_cons]
      have := ih hget hlt
      omega
theorem pfxOk_append {pfx x : JStr} (h : pfxOk pfx x) :
    pfx ++ x.drop pfx.length = x := by
  rcases h with h | h
  · subst h
    simp
  · exact List.prefix_iff_eq_append.mp (List.isPrefixOf_iff_prefix.mp h)

theorem emitKeyOf_mono (pfx : JStr) (delim : Option CodeUnit) {x y : JStr}
    (hx : pfxOk pfx x) (hy : pfxOk pfx y) (h : x ≤ y) :
    emitKeyOf pfx delim x ≤ emitKeyOf pfx delim y := by
  cases delim with
  | none => exact h
  | some d =>
    simp only [emitKeyOf]
    rw [append_le_append_left_iff]
    apply truncAtDelim_mono
    rw [← append_le_append_left_iff pfx]
    rw [pfxOk_append hx, pfxOk_append hy]
    exact h

theorem processSelectedRecord_eq (pfx : JStr) (d : CodeUnit) (r0 : JStr)
    (hok : pfxOk pfx r0) :
    processSelectedRecord pfx (some d) r0 =
      (match jsIndexOf d (r0.drop pfx.length) with
       | none => some (.record r0, none)
       | some idx =>
         some (.group ((pfx ++ (r0.drop pfx.length).take idx) ++ [d])
                      ((pfx ++ (r0.drop pfx.length).take idx) ++ [d + 1]),
               some ((pfx ++ (r0.drop pfx.length).take idx) ++ [d + 1]))) := by
  have hguard : ¬ (pfx ≠ [] ∧ ¬ pfx.isPrefixOf r0 = true) := by
    rcases hok with h | h
    · intro hc
      exact hc.1 h
    · intro hc
      exact hc.2 h
  simp only [processSelectedRecord]
  rw [if_neg hguard]
  by_cases hp : pfx = []
  · subst hp
    rw [if_neg (fun hc => hc rfl)]
    simp only [List.length_nil, List.drop_zero]
  · rw [if_pos hp]

theorem processSelectedRecord_isSome (pfx : JStr) (delim : Option CodeUnit)
    (r0 : JStr) (hok : delim = none ∨ pfxOk pfx r0) :
    processSelectedRecord pfx delim r0 ≠ none := by
  cases delim with
  | none => simp [processSelectedRecord]
  | some d =>
    have hok' : pfxOk pfx r0 := by
      rcases hok with h | h
      · exact absurd h (by simp)
      · exact h
    rw [processSelectedRecord_eq pfx d r0 hok']
    rcases hidx : jsIndexOf d (r0.drop pfx.length) with _ | idx <;> simp

theorem processSelectedRecord_not_message {pfx : JStr} {delim : Option CodeUnit}
    {r0 : JStr} {em : PageEmission} {mk : Option JStr}
    (h : processSelectedRecord pfx delim r0 = some (em, mk)) :
    em.isMessage = false := by
  cases delim with
  | none =>
    simp only [processSelectedRecord] at h
    injection h with h'
    injection h' with h1 h2
    rw [← h1]
    rfl
  | some d =>
    simp only [processSelectedRecord] at h
    split at h
    · exact absurd h (by simp)
    · split at h <;> injection h with h' <;> injection h' with h1 h2 <;>
        rw [← h1] <;> rfl

theorem processSelectedRecord_key {pfx : JStr} {delim : Option CodeUnit}
    {r0 : JStr} {em : PageEmission} {mk : Option JStr}
    (hok : delim = none ∨ pfxOk pfx r0)
    (h : processSelectedRecord pfx delim r0 = some (em, mk)) :
    entryNameOf em = some (emitKeyOf pfx delim r0) := by
  cases delim with
  | none =>
    simp only [processSelectedRecord] at h
    injection h with h'
    injection h' with h1 h2
    rw [← h1]
    rfl
  | some d =>
    have hok' : pfxOk pfx r0 := by
      rcases hok with hh | hh
      · exact absurd hh (by simp)
      · exact hh
    rw [processSelectedRecord_eq pfx d r0 hok'] at h
    rcases hidx : jsIndexOf d (r0.drop pfx.length) with _ | idx <;>
      rw [hidx] at h <;> injection h with h' <;> injection h' with h1 h2 <;>
        rw [← h1]
    · simp only [entryNameOf, emitKeyOf]
      rw [truncAtDelim_of_jsIndexOf_none d _ hidx, pfxOk_append hok']
    · simp only [entryNameOf, emitKeyOf]
      rw [truncAtDelim_of_jsIndexOf_some d _ idx hidx, ← List.append_assoc]

/-! ### One step of processRecords -/

theorem processRecords_ok_shape {o : PagOpts} {st st2 : PagState}
    (h : processRecords o st = .ok st2) :
    (st.vnodes = [] ∧ st2 = st) ∨
    ∃ i v em mk, headSelect st.vnodes = some (i, v) ∧
      processSelectedRecord o.pfx o.delim v.headName = some (em, mk) ∧
      st2.emitted = st.emitted ++ [em] ∧
      st2.totalSent = st.totalSent + 1 ∧
      st2.errorsSeen = st.errorsSeen ∧
      st2.doneEarly = st.doneEarly ∧
      ((mk = none ∧
          st2.vnodes = st.vnodes.set i { v with buffered := none }) ∨
        ∃ m, mk = some m ∧
          st2.vnodes = (st.vnodes.set i
            { v with buffered := none }).filterMap (setNewMarkerVN m)) := by
  rcases hsel : headSelect st.vnodes with _ | ⟨i, v⟩ <;>
    simp only [processRecords, hsel] at h
  · injection h with h'
    exact Or.inl ⟨headSelect_eq_none hsel, h'.symm⟩
  · rcases hpsr : processSelectedRecord o.pfx o.delim v.headName
        with _ | ⟨em, _ | m⟩ <;> simp only [hpsr] at h
    · exact (Except.noConfusion h)
    · injection h with h'
      subst h'
      exact Or.inr ⟨i, v, em, none, rfl, hpsr, rfl, rfl, rfl, rfl,
        Or.inl ⟨rfl, rfl⟩⟩
    · injection h with h'
      subst h'
      exact Or.inr ⟨i, v, em, some m, rfl, hpsr, rfl, rfl, rfl, rfl,
        Or.inr ⟨m, rfl, rfl⟩⟩

theorem processRecords_error_shape {o : PagOpts} {st stA : PagState}
    (h : processRecords o st = .error stA) :
    ∃ i v, headSelect st.vnodes = some (i, v) ∧
      processSelectedRecord o.pfx o.delim v.headName = none ∧
      stA.emitted = st.emitted := by
  rcases hsel : headSelect st.vnodes with _ | ⟨i, v⟩ <;>
    simp only [processRecords, hsel] at h
  · exact (Except.noConfusion h)
  · rcases hpsr : processSelectedRecord o.pfx o.delim v.headName
        with _ | ⟨em, _ | m⟩ <;> simp only [hpsr] at h
    · injection h with h'
      exact ⟨i, v, rfl, hpsr, by rw [← h']⟩
    · exact (Except.noConfusion h)
    · exact (Except.noConfusion h)

theorem processRecords_measure {o : PagOpts} {st st2 : PagState}
    (hbuf : ∀ v ∈ st.vnodes, v.buffered.isSome = true)
    (hne : st.vnodes ≠ []) (h : processRecords o st = .ok st2) :
    pagMeasure st2 < pagMeasure st := by
  rcases processRecords_ok_shape h with ⟨hnil, _⟩ |
    ⟨i, v, em, mk, hsel, hpsr, -, -, -, -, hv⟩
  · exact absurd hnil hne
  · obtain ⟨hget, -⟩ := headSelect_spec hsel
    have hmem : v ∈ st.vnodes := List.get?_mem hget
    have hb := hbuf v hmem
    rcases hbv : v.buffered with _ | r
    · rw [hbv] at hb
      exact absurd hb (by simp)
    · have hlen : (VnodeStream.records { v with buffered := none }).length
          < v.records.length := by
        simp [VnodeStream.records, hbv]
      have hset := vnListMeasure_set_lt hget hlen
      show vnListMeasure st2.vnodes < vnListMeasure st.vnodes
      rcases hv with ⟨-, hveq⟩ | ⟨m, -, hveq⟩
      · rw [hveq]
        exact hset
      · rw [hveq]
        exact lt_of_le_of_lt (vnListMeasure_filterMap_le m _) hset

/-! ## Theorem: C4 -/

/-- C4: in the merge-paginator, with a delimiter `d` configured, one step
of `processRecords` on the selected head record emits a group record
exactly when the delimiter occurs (at index `idx`) in the prefix-stripped
name: the group's name is the prefix plus the substring up to and
including the delimiter, its nextMarker is the prefix plus the substring
before the delimiter plus the code unit one above the delimiter, and
every stream is then advanced to that nextMarker via `setNewMarkerVN`;
when the delimiter is absent from the stripped name the plain record is
emitted and only the selected stream's slot is cleared. -/
theorem C4_delimiter_grouping (o : PagOpts) (d : CodeUnit)
    (st st2 : PagState) (i : Nat) (v : VnodeStream)
    (hdelim : o.delim = some d)
    (hsel : headSelect st.vnodes = some (i, v))
    (hok : pfxOk o.pfx v.headName)
    (h : processRecords o st = .ok st2) :
    (∀ idx, jsIndexOf d (v.headName.drop o.pfx.length) = some idx →
      st2.emitted = st.emitted ++
        [.group ((o.pfx ++ (v.headName.drop o.pfx.length).take idx) ++ [d])
          ((o.pfx ++ (v.headName.drop o.pfx.length).take idx) ++ [d + 1])] ∧
      st2.vnodes =
        (st.vnodes.set i { v with buffered := none }).filterMap
          (setNewMarkerVN
            ((o.pfx ++ (v.headName.drop o.pfx.length).take idx)
              ++ [d + 1]))) ∧
    (jsIndexOf d (v.headName.drop o.pfx.length) = none →
      st2.emitted = st.emitted ++ [.record v.headName] ∧
      st2.vnodes = st.vnodes.set i { v with buffered := none }) := by
  rcases processRecords_ok_shape h with ⟨hnil, -⟩ |
    ⟨i', v', em, mk, hsel', hpsr, hem, -, -, -, hv⟩
  · rw [hnil] at hsel
    exact absurd hsel (by simp [headSelect])
  · rw [hsel] at hsel'
    injection hsel' with hp
    injection hp with h1 h2
    subst h1
    subst h2
    rw [hdelim, processSelectedRecord_eq o.pfx d v.headName hok] at hpsr
    rcases hidx : jsIndexOf d (v.headName.drop o.pfx.length) with _ | idx <;>
      simp only [hidx] at hpsr <;> injection hpsr with hq <;>
      injection hq with hqe hqm
    · constructor
      · intro idx2 hcontra
        exact (Option.noConfusion hcontra)
      · intro _
        rcases hv with ⟨-, hveq⟩ | ⟨m, hm, -⟩
        · constructor
          · rw [hem, ← hqe]
          · exact hveq
        · rw [← hqm] at hm
          exact (Option.noConfusion hm)
    · constructor
      · intro idx2 hidx2
        injection hidx2 with he
        subst he
        rcases hv with ⟨hm, -⟩ | ⟨m, hm, hveq⟩
        · rw [← hqm] at hm
          exact (Option.noConfusion hm)
        · rw [← hqm] at hm
          injection hm with hm'
          constructor
          · rw [hem, ← hqe]
          · rw [hveq, ← hm']
      · intro hcontra
        exact (Option.noConfusion hcontra)

theorem C4_delimiter_grouping_witness :
    ∃ st2 : PagState,
      processRecords ⟨10, [], some 47⟩
          ⟨[⟨some [97, 47, 98], [], none, false⟩], [], [], false, 0⟩
        = .ok st2 ∧
      st2.emitted = [PageEmission.group [97, 47] [97, 48]] ∧
      st2.vnodes = [⟨none, [], none, true⟩] := by
  have h := (C4_delimiter_grouping ⟨10, [], some 47⟩ 47
      ⟨[⟨some [97, 47, 98], [], none, false⟩], [], [], false, 0⟩
      ⟨[⟨none, [], none, true⟩], [PageEmission.group [97, 47] [97, 48]],
        [], false, 1⟩
      0 ⟨some [97, 47, 98], [], none, false⟩
      rfl rfl (Or.inl rfl) rfl).1 1 rfl
  exact ⟨_, rfl, h.1.trans (by decide), h.2.trans (by decide)⟩

/-! ### Preservation of the merge invariant -/

theorem emitKeyOf_mono_cond {pfx : JStr} {delim : Option CodeUnit}
    {x y : JStr} (hx : delim = none ∨ pfxOk pfx x)
    (hy : delim = none ∨ pfxOk pfx y) (h : x ≤ y) :
    emitKeyOf pfx delim x ≤ emitKeyOf pfx delim y := by
  cases delim with
  | none => exact h
  | some d =>
    have hx' : pfxOk pfx x := by
      rcases hx with h' | h'
      · exact absurd h' (by simp)
      · exact h'
    have hy' : pfxOk pfx y := by
      rcases hy with h' | h'
      · exact absurd h' (by simp)
      · exact h'
    exact emitKeyOf_mono pfx (some d) hx' hy' h

theorem processSelectedRecord_ok_cond {pfx : JStr} {delim : Option CodeUnit}
    {r0 : JStr} {res : PageEmission × Option JStr}
    (h : processSelectedRecord pfx delim r0 = some res) :
    delim = none ∨ pfxOk pfx r0 := by
  cases delim with
  | none => exact Or.inl rfl
  | some d =>
    refine Or.inr ?_
    simp only [processSelectedRecord] at h
    by_cases hguard : pfx ≠ [] ∧ ¬ pfx.isPrefixOf r0 = true
    · rw [if_pos hguard] at h
      exact (Option.noConfusion h)
    · by_cases hp : pfx = []
      · exact Or.inl hp
      · refine Or.inr ?_
        by_contra hc
        exact hguard ⟨hp, hc⟩

theorem head_min_all {vs : List VnodeStream} {i : Nat} {v : VnodeStream}
    (hbuf : ∀ w ∈ vs, w.buffered.isSome = true)
    (hsorted : ∀ w ∈ vs, w.records.Pairwise (· ≤ ·))
    (hsel : headSelect vs = some (i, v)) :
    ∀ w ∈ vs, ∀ r ∈ w.records, v.headName ≤ r := by
  intro w hw r hr
  obtain ⟨-, hmin⟩ := headSelect_spec hsel
  have h1 : v.headName ≤ w.headName := hmin w hw
  have hb := hbuf w hw
  rcases hbw : w.buffered with _ | b
  · rw [hbw] at hb
    exact absurd hb (by simp)
  · have hrec : w.records = b :: w.rest := by
      simp [VnodeStream.records, hbw]
    have hhead : w.headName = b := by
      simp [VnodeStream.headName, hbw]
    rw [hrec] at hr
    rcases List.mem_cons.mp hr with rfl | hr'
    · rw [hhead] at h1
      exact h1
    · have hble : b ≤ r := by
        have hp := hsorted w hw
        rw [hrec] at hp
        exact (List.pairwise_cons.mp hp).1 r hr'
      rw [hhead] at h1
      exact le_trans h1 hble

theorem mem_set_clear_sublist {vs : List VnodeStream} {i : Nat}
    {v w : VnodeStream} (hget : vs.get? i = some v)
    (hw : w ∈ vs.set i { v with buffered := none }) :
    ∃ u ∈ vs, w.records.Sublist u.records := by
  rcases List.mem_or_eq_of_mem_set hw with h | rfl
  · exact ⟨w, h, List.Sublist.refl _⟩
  · refine ⟨v, List.get?_mem hget, ?_⟩
    simp only [VnodeStream.records, Option.toList_none, List.nil_append]
    exact List.sublist_append_right _ _

theorem mem_filterMap_sublist {m : JStr} {vs : List VnodeStream}
    {w : VnodeStream} (hw : w ∈ vs.filterMap (setNewMarkerVN m)) :
    ∃ u ∈ vs, w.records.Sublist u.records := by
  obtain ⟨u, hu, hmap⟩ := List.mem_filterMap.mp hw
  exact ⟨u, hu, setNewMarkerVN_records_sublist hmap⟩

theorem PagInv_congr {o : PagOpts} {st st' : PagState}
    (hv : st'.vnodes = st.vnodes) (he : st'.emitted = st.emitted)
    (h : PagInv o st) : PagInv o st' := by
  obtain ⟨a, b, c⟩ := h
  refine ⟨?_, ?_, ?_⟩
  · rw [hv]
    exact a
  · rw [he]
    exact b
  · rw [hv, he]
    exact c

theorem PagInv_refill {o : PagOpts} {st : PagState} {vs' : List VnodeStream}
    {errs : List Nat} {de : Bool} (hinv : PagInv o st)
    (hmem : ∀ v' ∈ vs', ∃ v ∈ st.vnodes, v'.records = v.records) :
    PagInv o { st with vnodes := vs', errorsSeen := errs, doneEarly := de }
    := by
  obtain ⟨hsort, hpair, hcross⟩ := hinv
  refine ⟨?_, hpair, ?_⟩
  · intro v' hv'
    obtain ⟨v, hv, heq⟩ := hmem v' hv'
    show v'.records.Pairwise (· ≤ ·)
    rw [heq]
    exact hsort v hv
  · intro n hn v' hv' r hr hguard
    obtain ⟨v, hv, heq⟩ := hmem v' hv'
    rw [heq] at hr
    exact hcross n hn v hv r hr hguard

theorem processRecords_inv {o : PagOpts} {st st2 : PagState}
    (hbuf : ∀ v ∈ st.vnodes, v.buffered.isSome = true)
    (hinv : PagInv o st) (h : processRecords o st = .ok st2) :
    PagInv o st2 := by
  obtain ⟨hsort, hpair, hcross⟩ := hinv
  rcases processRecords_ok_shape h with ⟨-, rfl⟩ |
    ⟨i, v, em, mk, hsel, hpsr, hem, -, -, -, hv⟩
  · exact ⟨hsort, hpair, hcross⟩
  · have hcond := processSelectedRecord_ok_cond hpsr
    have hkey := processSelectedRecord_key hcond hpsr
    obtain ⟨hget, -⟩ := headSelect_spec hsel
    have hvmem : v ∈ st.vnodes := List.get?_mem hget
    have hb := hbuf v hvmem
    have hr0mem : v.headName ∈ v.records := by
      rcases hbv : v.buffered with _ | b
      · rw [hbv] at hb
        exact absurd hb (by simp)
      · simp [VnodeStream.records, VnodeStream.headName, hbv]
    have hminall := head_min_all hbuf hsort hsel
    have hnames : entryNames st2.emitted
        = entryNames st.emitted ++ [emitKeyOf o.pfx o.delim v.headName] := by
      rw [hem]
      simp [entryNames, List.filterMap_append, hkey]
    have hafter : ∀ w ∈ st2.vnodes, ∃ u ∈ st.vnodes,
        w.records.Sublist u.records := by
      intro w hw
      rcases hv with ⟨-, hveq⟩ | ⟨m, -, hveq⟩
      · rw [hveq] at hw
        exact mem_set_clear_sublist hget hw
      · rw [hveq] at hw
        obtain ⟨u1, hu1, hsub1⟩ := mem_filterMap_sublist hw
        obtain ⟨u2, hu2, hsub2⟩ := mem_set_clear_sublist hget hu1
        exact ⟨u2, hu2, hsub1.trans hsub2⟩
    refine ⟨?_, ?_, ?_⟩
    · intro w hw
      obtain ⟨u, hu, hsub⟩ := hafter w hw
      exact List.Pairwise.sublist hsub (hsort u hu)
    · rw [hnames]
      refine (List.pairwise_append).mpr ⟨hpair, List.pairwise_singleton _ _, ?_⟩
      intro n hn k hk
      rw [List.mem_singleton] at hk
      subst hk
      exact hcross n hn v hvmem v.headName hr0mem hcond
    · rw [hnames]
      intro n hn w hw r' hr' hguard
      obtain ⟨u, hu, hsub⟩ := hafter w hw
      have hr'u : r' ∈ u.records := hsub.subset hr'
      rcases List.mem_append.mp hn with hn' | hn'
      · exact hcross n hn' u hu r' hr'u hguard
      · rw [List.mem_singleton] at hn'
        subst hn'
        exact emitKeyOf_mono_cond hcond hguard (hminall u hu r' hr'u)

theorem entryNames_append (l l' : List PageEmission) :
    entryNames (l ++ l') = entryNames l ++ entryNames l' := by
  simp [entryNames, List.filterMap_append]

theorem entryNames_message (l : List PageEmission) (b : Bool) :
    entryNames (l ++ [.message b]) = entryNames l := by
  simp [entryNames, List.filterMap_append, entryNameOf]

theorem paginationLoop_pairwise (o : PagOpts) :
    ∀ (fuel : Nat) (st : PagState), PagInv o st →
      (entryNames (paginationLoop o fuel st).emitted).Pairwise (· ≤ ·) := by
  intro fuel
  induction fuel with
  | zero =>
    intro st hinv
    exact hinv.2.1
  | succ fuel ih =>
    intro st hinv
    simp only [paginationLoop]
    by_cases h0 : (st.vnodes.isEmpty || st.doneEarly) = true
    · rw [if_pos h0]
      unfold finishPagination
      split_ifs with he
      · show (entryNames (st.emitted ++ [.message st.vnodes.isEmpty])).Pairwise
          (· ≤ ·)
        rw [entryNames_message]
        exact hinv.2.1
      · exact hinv.2.1
    · rw [if_neg h0]
      set st1 : PagState :=
        { st with
          vnodes := (refillVnodes st.vnodes).1
          errorsSeen := st.errorsSeen ++ (refillVnodes st.vnodes).2
          doneEarly := st.doneEarly || !(refillVnodes st.vnodes).2.isEmpty }
        with hst1
      have hinv1 : PagInv o st1 :=
        PagInv_refill hinv (fun v' hv' => refillVnodes_mem hv')
      have hbuf1 : ∀ v ∈ st1.vnodes, v.buffered.isSome = true :=
        fun v hv => refillVnodes_buffered hv
      split_ifs with h1 h2
      · exact ih st1 hinv1
      · exact ih _ (PagInv_congr rfl rfl hinv1)
      · rcases hpr : processRecords o st1 with stA | st2
        · obtain ⟨i, v, -, -, hemeq⟩ := processRecords_error_shape hpr
          show (entryNames stA.emitted).Pairwise (· ≤ ·)
          rw [hemeq]
          exact hinv1.2.1
        · exact ih st2 (processRecords_inv hbuf1 hinv1 hpr)

/-! ## Theorem: C5 -/

/-- C5: for every listing request - any per-vnode record streams whose
records are individually sorted, any limit, prefix and delimiter - the
sequence of entry names emitted by the merge-paginator is non-decreasing
in the order-by key: every emitted entry's name is at least the name of
every previously emitted entry, over every run outcome. -/
theorem C5_merge_output_sorted (o : PagOpts)
    (streams : List (List PageRec × Option Nat))
    (hs : ∀ s ∈ streams, s.1.Pairwise (· ≤ ·)) :
    (entryNames (paginationStream o streams).emitted).Pairwise (· ≤ ·) := by
  unfold paginationStream
  apply paginationLoop_pairwise
  refine ⟨?_, ?_, ?_⟩
  · intro v hv
    obtain ⟨s, hsmem, rfl⟩ := List.mem_map.mp hv
    simpa [initVnodeStream, VnodeStream.records] using hs s hsmem
  · simp [entryNames]
  · intro n hn
    simp [entryNames] at hn

theorem C5_merge_output_sorted_witness :
    (entryNames (paginationStream ⟨10, [], none⟩
        [([[97], [98]], none), ([[97, 98]], none)]).emitted).Pairwise
      (· ≤ ·) :=
  C5_merge_output_sorted ⟨10, [], none⟩
    [([[97], [98]], none), ([[97, 98]], none)] (by decide)

/-! ### Termination and shape of the merge loop -/

theorem pagLoop_stop {o : PagOpts} {fuel : Nat} {st : PagState}
    (hstop : (st.vnodes.isEmpty || st.doneEarly) = true) (hf : 1 ≤ fuel) :
    paginationLoop o fuel st = finishPagination st := by
  cases fuel with
  | zero => exact absurd hf (by simp)
  | succ fuel => simp only [paginationLoop, hstop, if_true]

theorem processRecords_records_sublist {o : PagOpts} {st st2 : PagState}
    (h : processRecords o st = .ok st2) :
    ∀ w ∈ st2.vnodes, ∃ u ∈ st.vnodes, w.records.Sublist u.records := by
  rcases processRecords_ok_shape h with ⟨-, rfl⟩ |
    ⟨i, v, em, mk, hsel, hpsr, -, -, -, -, hv⟩
  · intro w hw
    exact ⟨w, hw, List.Sublist.refl _⟩
  · obtain ⟨hget, -⟩ := headSelect_spec hsel
    intro w hw
    rcases hv with ⟨-, hveq⟩ | ⟨m, -, hveq⟩
    · rw [hveq] at hw
      exact mem_set_clear_sublist hget hw
    · rw [hveq] at hw
      obtain ⟨u1, hu1, hsub1⟩ := mem_filterMap_sublist hw
      obtain ⟨u2, hu2, hsub2⟩ := mem_set_clear_sublist hget hu1
      exact ⟨u2, hu2, hsub1.trans hsub2⟩

theorem refill_c6inv {o : PagOpts} {st : PagState} (hinv : C6Inv o st) :
    C6Inv o { st with
      vnodes := (refillVnodes st.vnodes).1
      errorsSeen := st.errorsSeen ++ (refillVnodes st.vnodes).2
      doneEarly := st.doneEarly || !(refillVnodes st.vnodes).2.isEmpty } := by
  obtain ⟨hnm, hts, hle, hde, hpfx⟩ := hinv
  refine ⟨hnm, hts, hle, ?_, ?_⟩
  · intro hc
    rcases (Bool.or_eq_true _ _).mp hc with h' | h'
    · rcases hde h' with herr | hlim
      · left
        intro hc2
        exact herr (List.append_eq_nil.mp hc2).1
      · right
        exact hlim
    · left
      intro hc2
      have hrf : (refillVnodes st.vnodes).2 = [] :=
        (List.append_eq_nil.mp hc2).2
      rw [hrf] at h'
      simp at h'
  · rcases hpfx with hnone | hall
    · exact Or.inl hnone
    · refine Or.inr ?_
      intro v' hv' r hr
      obtain ⟨v, hv, heq⟩ := refillVnodes_mem hv'
      rw [heq] at hr
      exact hall v hv r hr

theorem processRecords_c6inv {o : PagOpts} {st st2 : PagState}
    (hinv : C6Inv o st) (hde : st.doneEarly = false)
    (hlt : st.totalSent < o.limit)
    (h : processRecords o st = .ok st2) : C6Inv o st2 := by
  obtain ⟨hnm, hts, hle, -, hpfx⟩ := hinv
  have hafter := processRecords_records_sublist h
  have hpfx2 : o.delim = none ∨
      ∀ v ∈ st2.vnodes, ∀ r ∈ v.records, pfxOk o.pfx r := by
    rcases hpfx with hnone | hall
    · exact Or.inl hnone
    · refine Or.inr ?_
      intro w hw r hr
      obtain ⟨u, hu, hsub⟩ := hafter w hw
      exact hall u hu r (hsub.subset hr)
  rcases processRecords_ok_shape h with ⟨-, rfl⟩ |
    ⟨i, v, em, mk, hsel, hpsr, hem, htot, herr, hdone, -⟩
  · exact ⟨hnm, hts, hle, fun hc => absurd hc (by simp [hde]), hpfx⟩
  · refine ⟨?_, ?_, ?_, ?_, hpfx2⟩
    · intro e he
      rw [hem] at he
      rcases List.mem_append.mp he with he' | he'
      · exact hnm e he'
      · rw [List.mem_singleton] at he'
        subst he'
        exact processSelectedRecord_not_message hpsr
    · rw [htot, hem, List.length_append, hts]
      rfl
    · omega
    · intro hc
      rw [hdone, hde] at hc
      exact absurd hc (by simp)

theorem finish_shape {o : PagOpts} {st : PagState} (hinv : C6Inv o st)
    (hstop : st.vnodes.isEmpty = true ∨ st.doneEarly = true) :
    (∃ entries finished fv,
       finishPagination st = .ok (entries ++ [.message finished]) fv ∧
       NoMessages entries ∧ finished = fv.isEmpty ∧
       (finished = false → entries.length = o.limit)) ∨
    (∃ entries errs,
       finishPagination st = .errored entries errs ∧
       ¬ errs = [] ∧ NoMessages entries) := by
  obtain ⟨hnm, hts, hle, hde, -⟩ := hinv
  unfold finishPagination
  split_ifs with he
  · left
    refine ⟨st.emitted, st.vnodes.isEmpty, st.vnodes, rfl, hnm, rfl, ?_⟩
    intro hfin
    have hdone : st.doneEarly = true := by
      rcases hstop with h' | h'
      · rw [hfin] at h'
        exact absurd h' (by simp)
      · exact h'
    rcases hde hdone with herr | hlim
    · exact absurd (List.isEmpty_iff.mp he) herr
    · omega
  · right
    refine ⟨st.emitted, st.errorsSeen, rfl, ?_, hnm⟩
    intro hc
    rw [hc] at he
    exact he rfl

theorem paginationLoop_terminal (o : PagOpts) :
    ∀ (fuel : Nat) (st : PagState), C6Inv o st → pagMeasure st + 2 ≤ fuel →
      (∃ entries finished fv,
         paginationLoop o fuel st = .ok (entries ++ [.message finished]) fv ∧
         NoMessages entries ∧ finished = fv.isEmpty ∧
         (finished = false → entries.length = o.limit)) ∨
      (∃ entries errs,
         paginationLoop o fuel st = .errored entries errs ∧
         ¬ errs = [] ∧ NoMessages entries) := by
  intro fuel
  induction fuel with
  | zero =>
    intro st _ hf
    exact absurd hf (by omega)
  | succ fuel ih =>
    intro st hinv hf
    by_cases h0 : (st.vnodes.isEmpty || st.doneEarly) = true
    · rw [pagLoop_stop h0 (by omega)]
      exact finish_shape hinv ((Bool.or_eq_true _ _).mp h0)
    · simp only [paginationLoop]
      rw [if_neg h0]
      set st1 : PagState :=
        { st with
          vnodes := (refillVnodes st.vnodes).1
          errorsSeen := st.errorsSeen ++ (refillVnodes st.vnodes).2
          doneEarly := st.doneEarly || !(refillVnodes st.vnodes).2.isEmpty }
        with hst1
      have hinv1 : C6Inv o st1 := refill_c6inv hinv
      have hmeas1 : pagMeasure st1 ≤ pagMeasure st := by
        have hrm := refillVnodes_measure st.vnodes
        show vnListMeasure (refillVnodes st.vnodes).1
          ≤ vnListMeasure st.vnodes
        omega
      split_ifs with h1 h2
      · rw [pagLoop_stop (by simp [h1]) (by omega)]
        exact finish_shape hinv1 (Or.inr h1)
      · rw [pagLoop_stop (by simp) (by omega)]
        refine finish_shape ?_ (Or.inr rfl)
        obtain ⟨a, b, c, -, e⟩ := hinv1
        exact ⟨a, b, c, fun _ => Or.inr h2, e⟩
      · by_cases hnil : st1.vnodes = []
        · have hnil' : (refillVnodes st.vnodes).1 = [] := hnil
          have hpr : processRecords o st1 = .ok st1 := by
            simp only [processRecords, hnil', headSelect]
          simp only [hpr]
          rw [pagLoop_stop (by simp [hnil']) (by omega)]
          exact finish_shape hinv1 (Or.inl (by simp [hnil']))
        · rcases hpr : processRecords o st1 with stA | st2
          · exfalso
            obtain ⟨i, v, hsel, hnone, -⟩ := processRecords_error_shape hpr
            obtain ⟨hget, -⟩ := headSelect_spec hsel
            have hvmem : v ∈ st1.vnodes := List.get?_mem hget
            have hb : v.buffered.isSome = true := refillVnodes_buffered hvmem
            have hr0mem : v.headName ∈ v.records := by
              rcases hbv : v.buffered with _ | b
              · rw [hbv] at hb
                exact absurd hb (by simp)
              · simp [VnodeStream.records, VnodeStream.headName, hbv]
            have hok2 : o.delim = none ∨ pfxOk o.pfx v.headName := by
              rcases hinv1.2.2.2.2 with hnone' | hall
              · exact Or.inl hnone'
              · exact Or.inr (hall v hvmem v.headName hr0mem)
            exact processSelectedRecord_isSome o.pfx o.delim v.headName
              hok2 hnone
          · have hts1 : st1.totalSent = st.totalSent := rfl
            have hlt : st1.totalSent < o.limit := by
              omega
            have hde1 : st1.doneEarly = false := by
              rcases hbb : st1.doneEarly
              · rfl
              · exact absurd hbb h1
            have hinv2 : C6Inv o st2 :=
              processRecords_c6inv hinv1 hde1 hlt hpr
            have hbuf1 : ∀ v ∈ st1.vnodes, v.buffered.isSome = true :=
              fun v hv => refillVnodes_buffered hv
            have hmeas2 : pagMeasure st2 < pagMeasure st1 :=
              processRecords_measure hbuf1 hnil hpr
            exact ih st2 hinv2 (by omega)

/-! ## Theorem: C6 -/

/-- C6: over per-vnode streams whose records pass the group branch's
prefix assertion (vacuous without a delimiter), every run of the
merge-paginator either collects no error and emits exactly one terminal
`{type: message, finished}` record after all entries - `finished` true
exactly when every vnode stream was exhausted, and a `finished = false`
stop means exactly `limit` entries were sent - or collects a non-empty
error set, in which case the caller receives the errors and no terminal
message is emitted. -/
theorem C6_terminal_message (o : PagOpts)
    (streams : List (List PageRec × Option Nat))
    (hok : o.delim = none ∨ ∀ s ∈ streams, ∀ r ∈ s.1, pfxOk o.pfx r) :
    (∃ entries finished fv,
       paginationStream o streams
         = .ok (entries ++ [.message finished]) fv ∧
       NoMessages entries ∧ finished = fv.isEmpty ∧
       (finished = false → entries.length = o.limit)) ∨
    (∃ entries errs,
       paginationStream o streams = .errored entries errs ∧
       ¬ errs = [] ∧ NoMessages entries) := by
  refine paginationLoop_terminal o _ _ ⟨?_, rfl, Nat.zero_le _, ?_, ?_⟩
    (le_refl _)
  · intro e he
    exact absurd he (by simp)
  · intro hc
    exact absurd hc (by simp)
  · rcases hok with hnone | hall
    · exact Or.inl hnone
    · refine Or.inr ?_
      intro v hv r hr
      obtain ⟨s, hsmem, rfl⟩ := List.mem_map.mp hv
      refine hall s hsmem r ?_
      simpa [initVnodeStream, VnodeStream.records] using hr

theorem C6_terminal_message_witness :
    (∃ entries finished fv,
       paginationStream ⟨10, [], none⟩ [([[97]], none)]
         = .ok (entries ++ [.message finished]) fv ∧
       NoMessages entries ∧ finished = fv.isEmpty ∧
       (finished = false → entries.length = 10)) ∨
    (∃ entries errs,
       paginationStream ⟨10, [], none⟩ [([[97]], none)]
         = .errored entries errs ∧
       ¬ errs = [] ∧ NoMessages entries) :=
  C6_terminal_message ⟨10, [], none⟩ [([[97]], none)] (Or.inl rfl)
